import Mathlib

/-!
TerminalRaycast: the per-pixel raytracer and the half-block frame encoder.

A shallow embedding of `main.cpp`.  The `float` arithmetic of the program is
read in exact arithmetic: the geometric code (which needs `sqrt`, `cos`, `sin`
and `pow`) over `ℝ`, the parts that only need ordering, truncation and
formatting over any ordered field with a floor function, so that they can be
evaluated over `ℚ`.  A `valarray<float>` holding three components is a `Vec3`.
Loops whose trip count is not known in advance carry a fuel argument and return
`none` when it runs out.  Two effects of `float` are kept.  The intensity stored
at a sphere hit is rounded as a `float` (`halfIntensity`), so that repeated
halving reaches 0 as it does in the program.  The NaN that `pow` returns for a
negative base is kept in `getSunLightNaN` and `getPixelNaN`, which agree with
`getSunLight` and `getPixel` wherever the base is not negative.
-/

namespace TerminalRaycast

/-- Three-component vector, the `valarray<float>` triples of `main.cpp`. -/
@[ext]
structure Vec3 (K : Type) where
  x : K
  y : K
  z : K

section Encoder

variable {K : Type} [LinearOrderedField K] [FloorRing K]

/-- The conversion `int(v)` / `(int) v` of a `float`: truncation toward zero.
C++ defines it only for values whose truncation fits in an `int`. -/
def toInt (v : K) : Int :=
  if 0 ≤ v then ⌊v⌋ else ⌈v⌉

/-- The channel conversion of lines 246-251: `min(255, int(v))`. -/
def channel (v : K) : Int :=
  min 255 (toInt v)

/-- Body of the inner loop of `main` (lines 243-254) once both pixels are known:
the six channels are converted and the two SGR sequences and the glyph are
streamed onto `stringBuffer`. -/
def emitCell (stringBuffer : String) (colorTop colorBottom : Vec3 K) : String :=
  let r0 := channel colorTop.x
  let g0 := channel colorTop.y
  let b0 := channel colorTop.z
  let r1 := channel colorBottom.x
  let g1 := channel colorBottom.y
  let b1 := channel colorBottom.z
  stringBuffer ++ "\x1b[48;2;" ++ toString r0 ++ ";" ++ toString g0 ++ ";" ++ toString b0
    ++ "m\x1b[38;2;" ++ toString r1 ++ ";" ++ toString g1 ++ ";" ++ toString b1 ++ "m▄"

/-- The loop `for (int x = 0; x < ws_col; x++)` of line 242 for terminal row `y`.
`px x y` stands for the call `getPixel(x, y, camera, rotation)`. -/
def rowLoop (ws_col : Nat) (px : Int → Int → Vec3 K) (y : Nat) (stringBuffer : String) : String :=
  (List.range ws_col).foldl
    (fun buf (x : Nat) =>
      emitCell buf (px ((x : Int) * 2) ((y : Int) * 2)) (px ((x : Int) * 2) ((y : Int) * 2 + 1)))
    stringBuffer

/-- One pass of the main loop up to the write of line 259: the string held by
`stringBuffer` when it is sent to `std::cout`. -/
def frame (ws_row ws_col : Nat) (px : Int → Int → Vec3 K) : String :=
  let stringBuffer := "\x1b[H\x1b[?25l\x1b[48;2;0;0;0m\x1b[38;2;255;255;255m"
  let stringBuffer := (List.range ws_row).foldl (fun buf (y : Nat) => rowLoop ws_col px y buf) stringBuffer
  stringBuffer ++ "\x1b[0m"

/-- The cell of the specification (section 4.4): background SGR with the
converted top colour, foreground SGR with the converted bottom colour, then
the lower-half-block glyph U+2584. -/
def specCell (top bottom : Vec3 K) : String :=
  "\x1b[48;2;" ++ (toString (channel top.x) ++ (";" ++ (toString (channel top.y) ++ (";" ++
    (toString (channel top.z) ++ ("m" ++ ("\x1b[38;2;" ++ (toString (channel bottom.x) ++ (";" ++
    (toString (channel bottom.y) ++ (";" ++ (toString (channel bottom.z) ++ ("m" ++
    String.singleton (Char.ofNat 0x2584))))))))))))))

/-- The cells of the specification in row-major order: `r` outer, `c` inner,
the cell of `(r, c)` built from the pixels `(2c, 2r)` and `(2c, 2r + 1)`. -/
def specCells (rows cols : Nat) (px : Int → Int → Vec3 K) : List String :=
  (List.range rows).flatMap fun (r : Nat) =>
    (List.range cols).map fun (c : Nat) =>
      specCell (px (2 * (c : Int)) (2 * (r : Int))) (px (2 * (c : Int)) (2 * (r : Int) + 1))

/-- Number of half-block glyphs in a string. -/
def glyphCount (s : String) : Nat :=
  s.data.count (Char.ofNat 0x2584)

end Encoder

/-! ## Vector arithmetic -/

section VectorOps

variable {K : Type} [Field K]

/-- Elementwise `valarray` sum. -/
def Vec3.add (a b : Vec3 K) : Vec3 K := ⟨a.x + b.x, a.y + b.y, a.z + b.z⟩

/-- Elementwise `valarray` difference. -/
def Vec3.sub (a b : Vec3 K) : Vec3 K := ⟨a.x - b.x, a.y - b.y, a.z - b.z⟩

/-- Elementwise `valarray` product of two arrays. -/
def Vec3.mulv (a b : Vec3 K) : Vec3 K := ⟨a.x * b.x, a.y * b.y, a.z * b.z⟩

/-- Product of a `valarray` with a scalar (`vec * k`, `k * vec`). -/
def Vec3.scale (a : Vec3 K) (k : K) : Vec3 K := ⟨a.x * k, a.y * k, a.z * k⟩

instance : Add (Vec3 K) := ⟨Vec3.add⟩

instance : Sub (Vec3 K) := ⟨Vec3.sub⟩

/-- `dot`, lines 50-52. -/
def dot (vec1 vec2 : Vec3 K) : K :=
  vec1.x * vec2.x + vec1.y * vec2.y + vec1.z * vec2.z

end VectorOps

noncomputable section Scene

/-- `magnitude`, lines 36-38. -/
def magnitude (vec : Vec3 ℝ) : ℝ :=
  Real.sqrt (vec.x * vec.x + vec.y * vec.y + vec.z * vec.z)

/-- `normalize`, lines 40-48.  The division is the real one, with Lean's
convention `a / 0 = 0` where the program would produce a NaN. -/
def normalize (vec : Vec3 ℝ) : Vec3 ℝ :=
  let mag := magnitude vec
  ⟨vec.x / mag, vec.y / mag, vec.z / mag⟩

/-- `distance`, lines 54-56. -/
def distance (vec1 vec2 : Vec3 ℝ) : ℝ :=
  magnitude (vec1 - vec2)

/-- Line 12. -/
def SKY_COLOR : Vec3 ℝ := ⟨120, 190, 250⟩

/-- `struct RayHitInfo`, lines 17-24. -/
structure RayHitInfo where
  color : Vec3 ℝ
  pos : Vec3 ℝ
  dir : Vec3 ℝ
  normal : Vec3 ℝ
  nextIntensity : ℝ
  hitSky : Bool

/-- `struct Sphere`, lines 26-29. -/
structure Sphere where
  pos : Vec3 ℝ
  color : Vec3 ℝ

/-- The scene set up by `raycast`, lines 85-87. -/
def sphere : Sphere := { pos := ⟨0, 2, 8⟩, color := ⟨250, 0, 0⟩ }

/-- Which exit the marching loop took: the `break` of the sphere branch, the
`break` of the floor branch, or the loop condition `i < 65536` failing. -/
inductive Surface where
  | sphere
  | floor
  | sky
deriving DecidableEq

/-- What the marching loop leaves behind: the record `ray`, the value of the
loop counter `i` (the distance traveled) and the exit taken. -/
structure March where
  ray : RayHitInfo
  traveled : ℝ
  surface : Surface

end Scene

section Checker

variable {K : Type} [LinearOrderedField K] [FloorRing K]

/-- The `bool tileBrightness` of lines 113-115 for a floor position with
coordinates `p0 = ray.pos[0]` and `p2 = ray.pos[2]`; `%` is the truncated
remainder of C++. -/
def tileBrightness (p0 p2 : K) : Bool :=
  let t : Bool := decide (Int.tmod (toInt p0 + toInt p2) 2 = 0)
  let t := if p0 < 0 then !t else t
  let t := if p2 < 0 then !t else t
  t

end Checker

noncomputable section FloatStore

/-- Rounding of a real number to the nearest integer, ties to the even one: the
rounding mode of the conversion from `double` to `float`. -/
def roundHalfEven (x : ℝ) : Int :=
  if x - ⌊x⌋ < 1 / 2 then ⌊x⌋
  else if 1 / 2 < x - ⌊x⌋ then ⌊x⌋ + 1
  else if ⌊x⌋ % 2 = 0 then ⌊x⌋ else ⌊x⌋ + 1

/-- The value stored by `ray.nextIntensity = lastRay.nextIntensity * 0.5`
(line 103).  The product of a `float` with 0.5 is exact in `double`; stored in
the `float` field it is unchanged when it is a normal number
(`|t * 0.5| ≥ 2^-126`), and below that it is rounded to the nearest multiple of
the smallest positive `float`, `2^-149`, ties to even.  In particular
`2^-149 * 0.5` is stored as 0.  This is the one place where the rounding of
`float` is kept, because the loop of `getPixel` ends through it. -/
def halfIntensity (t : ℝ) : ℝ :=
  if (1 / 2 : ℝ) ^ 126 ≤ |t * 0.5| then t * 0.5
  else (roundHalfEven (t * 0.5 * 2 ^ 149) : ℝ) * (1 / 2) ^ 149

end FloatStore

noncomputable section Marcher

/-- The loop of lines 90-130.  `ray` is the record under construction, `i` the
loop counter; `minDist` is assigned in every iteration before it is read, so its
initial value 9999 is never used.  The uninitialised `ray.normal` of the
fresh record is taken to be the zero vector by the caller. -/
def raycastLoop (lastRay : RayHitInfo) : Nat → RayHitInfo → ℝ → Option March
  | 0, _, _ => none
  | fuel + 1, ray, i =>
    if i < 65536 then
      let dist := distance ray.pos sphere.pos - 1
      let bias := i / 512
      let minDist := dist
      if dist ≤ bias then
        let normal := normalize (ray.pos - sphere.pos)
        let dir := ray.dir - (normal.scale 2).scale (dot ray.dir normal)
        some { ray := { color := sphere.color, normal := normal, dir := dir,
                        pos := sphere.pos + (ray.pos - sphere.pos),
                        nextIntensity := halfIntensity lastRay.nextIntensity, hitSky := false },
               traveled := i, surface := Surface.sphere }
      else
        let dist := ray.pos.y
        let minDist := min dist minDist
        if dist ≤ bias then
          let color : Vec3 ℝ :=
            if tileBrightness ray.pos.x ray.pos.z then ⟨255, 255, 255⟩ else ⟨0, 0, 0⟩
          some { ray := { ray with color := color, hitSky := false, normal := ⟨0, 1, 0⟩ },
                 traveled := i, surface := Surface.floor }
        else
          raycastLoop lastRay fuel { ray with pos := ray.pos + (ray.dir.scale minDist).scale 1.01 }
            (i + minDist)
    else
      some { ray := ray, traveled := i, surface := Surface.sky }

/-- Lines 132-134: the sky colour is brightened near the sun direction. -/
def skyTint (ray : RayHitInfo) : RayHitInfo :=
  if ray.hitSky then
    let k : ℝ := max 1 (1.5 - distance (normalize ray.pos) (normalize ⟨1, 1, 0⟩))
    { ray with color := ray.color.scale k }
  else ray

/-- `raycast`, lines 75-137, together with the trace of its loop. -/
def raycastTraced (fuel : Nat) (lastRay : RayHitInfo) : Option March :=
  let ray : RayHitInfo :=
    { pos := lastRay.pos, dir := lastRay.dir, color := SKY_COLOR, hitSky := true,
      nextIntensity := 0, normal := ⟨0, 0, 0⟩ }
  (raycastLoop lastRay fuel ray 0).map fun m => { m with ray := skyTint m.ray }

/-- `raycast`, lines 75-137: the record it returns, when the loop ends within
`fuel` iterations. -/
def raycast (fuel : Nat) (lastRay : RayHitInfo) : Option RayHitInfo :=
  (raycastTraced fuel lastRay).map March.ray

/-- `std::clamp(v, lo, hi)`. -/
def clamp (v lo hi : ℝ) : ℝ :=
  if v < lo then lo else if hi < v then hi else v

/-- The shadow probe built by `getSunLight`, lines 140-147.  The fields the
program leaves uninitialised (`color`, `normal`, `hitSky`) are not read by
`raycast`. -/
def sunRay (pos normal : Vec3 ℝ) : RayHitInfo :=
  let sunVec : Vec3 ℝ := ⟨1, 1, 0⟩
  let adjust : Vec3 ℝ := ⟨0.02, 0.02, 0.02⟩
  { pos := pos + normal.mulv adjust + sunVec.mulv adjust, dir := sunVec, nextIntensity := -1,
    color := ⟨0, 0, 0⟩, normal := ⟨0, 0, 0⟩, hitSky := false }

/-- `getSunLight`, lines 139-151; `pow` is the real power function.  It follows
the program wherever the probe does not report sky or `dot(normal, sunVec)` is
not negative; `getSunLightNaN` covers the other case. -/
def getSunLight (fuel : Nat) (pos normal : Vec3 ℝ) : Option ℝ :=
  let sunVec : Vec3 ℝ := ⟨1, 1, 0⟩
  (raycast fuel (sunRay pos normal)).map fun sunRay =>
    if sunRay.hitSky then clamp ((dot normal sunVec) ^ (1.25 : ℝ)) 0.5 2 else 0.5

/-- Camera rotation, the two-component `valarray` `rot`: `rot0 = rot[0]` (yaw),
`rot1 = rot[1]` (pitch). -/
structure Rotation where
  rot0 : ℝ
  rot1 : ℝ

/-- Lines 154-183 of `getPixel`: the primary ray.  `ws_col` and `ws_row` are the
fields of the global `terminalSize`. -/
def primaryRay (ws_col ws_row : Nat) (x y : Int) (pos : Vec3 ℝ) (rot : Rotation) : RayHitInfo :=
  let dir := normalize
    ⟨((x : ℝ) / ((ws_col * 2 : Nat) : ℝ)) * 1 - 0.5,
     ((y : ℝ) / ((ws_row * 2 : Nat) : ℝ)) * 1 - 0.5,
     1⟩
  let dir : Vec3 ℝ := { dir with y := -dir.y }
  let dir : Vec3 ℝ := { dir with x := dir.x * (((ws_col : ℝ) / 2) / (ws_row : ℝ)) }
  let dir := normalize
    ⟨dir.x,
     dir.y * Real.cos rot.rot1 - dir.z * Real.sin rot.rot1,
     dir.y * Real.sin rot.rot1 + dir.z * Real.cos rot.rot1⟩
  let dir := normalize
    ⟨dir.x * Real.cos rot.rot0 - dir.z * Real.sin rot.rot0,
     dir.y,
     dir.x * Real.sin rot.rot0 + dir.z * Real.cos rot.rot0⟩
  { pos := pos, dir := dir, color := SKY_COLOR, nextIntensity := 1,
    normal := ⟨0, 0, 0⟩, hitSky := true }

/-- The variables of the bounce loop of `getPixel`. -/
structure Bounce where
  ray : RayHitInfo
  color : Vec3 ℝ
  nextIntensity : ℝ

/-- Body of the loop `while (ray.nextIntensity > 0)`, lines 189-195. -/
def bounceBody (fuel : Nat) (s : Bounce) : Option Bounce :=
  (raycast fuel s.ray).map fun ray =>
    let color := s.color + ray.color.scale (s.nextIntensity - ray.nextIntensity)
    let nextIntensity := ray.nextIntensity
    let ray := if ray.nextIntensity > 0 then { ray with pos := ray.pos + ray.dir.scale 0.1 } else ray
    { ray := ray, color := color, nextIntensity := nextIntensity }

/-- The loop `while (ray.nextIntensity > 0)`, lines 188-196, run for at most
`bounces` tests of its guard, that is `bounces - 1` passes through its body,
each call of `raycast` with `fuel` marching steps.  The intensity tested is the
one `raycast` stored, rounded as a `float` at a sphere hit (`halfIntensity`). -/
def bounceLoop (fuel : Nat) : Nat → Bounce → Option Bounce
  | 0, _ => none
  | bounces + 1, s =>
    if s.ray.nextIntensity > 0 then (bounceBody fuel s).bind (bounceLoop fuel bounces)
    else some s

end Marcher

/-! ## Values that may be NaN

A `float` that may be NaN is an `Option ℝ`, with `none` for NaN. -/

noncomputable section NaNValues

end NaNValues

noncomputable section SpecDirection

/-- The primary-ray direction as section 4.1 of the specification words it:
the `y` component is negated before the first normalize, the aspect correction
is followed by a second normalize, then pitch about X and yaw about Y, each
followed by a normalize. -/
def specDirection (cols rows : Nat) (x y : Int) (rot : Rotation) : Vec3 ℝ :=
  let d0 := normalize
    ⟨(x : ℝ) / (2 * (cols : ℝ)) - 0.5, -((y : ℝ) / (2 * (rows : ℝ)) - 0.5), 1⟩
  let d1 : Vec3 ℝ := { d0 with x := d0.x * (((cols : ℝ) / 2) / (rows : ℝ)) }
  let d2 := normalize d1
  let d3 := normalize
    ⟨d2.x, d2.y * Real.cos rot.rot1 - d2.z * Real.sin rot.rot1,
      d2.y * Real.sin rot.rot1 + d2.z * Real.cos rot.rot1⟩
  normalize
    ⟨d3.x * Real.cos rot.rot0 - d3.z * Real.sin rot.rot0, d3.y,
      d3.x * Real.sin rot.rot0 + d3.z * Real.cos rot.rot0⟩

end SpecDirection

section SpecParity

variable {K : Type} [LinearOrderedField K]

/-- The checker parity as the specification words it, for a given rounding
`round` of a coordinate to an integer: `(round x + round z) mod 2 == 0`,
negated once if `x < 0` and once more if `z < 0`. -/
def specParity (round : K → Int) (x z : K) : Bool :=
  xor (xor (decide ((round x + round z) % 2 = 0)) (decide (x < 0))) (decide (z < 0))

end SpecParity

noncomputable section SpecSunLight

/-- The sun-light factor of an unshadowed point as section 4.3 of the
specification words it, for a sun vector `s`:
`clamp(max(dot(normal, s), 0)^1.25, 0.5, 2.0)`. -/
def specSunLight (s normal : Vec3 ℝ) : ℝ :=
  clamp ((max (dot normal s) 0) ^ (1.25 : ℝ)) 0.5 2

end SpecSunLight

noncomputable section PixelTrace

/-- Trace of the bounce loop of `getPixel`: for each pass through its body, in
order, the weight `nextIntensity - ray.nextIntensity` and the hit colour
`ray.color` that line 190 multiplies and adds to `color`.  It retraces
`bounceLoop` and returns `none` exactly when `bounceLoop` does. -/
def bounceTrace (fuel : Nat) : Nat → Bounce → Option (List (ℝ × Vec3 ℝ))
  | 0, _ => none
  | bounces + 1, s =>
    if s.ray.nextIntensity > 0 then
      (bounceBody fuel s).bind fun s1 =>
        (bounceTrace fuel bounces s1).map fun l =>
          (s.nextIntensity - s1.nextIntensity, s1.ray.color) :: l
    else some []

end PixelTrace

/-! ## Lemmas on the encoder -/

section EncoderLemmas

variable {K : Type} [LinearOrderedField K] [FloorRing K]

theorem digitChar_ne_glyph (n : Nat) : Nat.digitChar n ≠ Char.ofNat 0x2584 := by
  by_cases h : n < 16
  · interval_cases n <;> decide
  · have e : Nat.digitChar n = '*' := by
      unfold Nat.digitChar
      repeat (rw [if_neg (by omega)])
    rw [e]; decide

theorem toDigitsCore_no_glyph (fuel : Nat) : ∀ (n : Nat) (ds : List Char),
    (∀ c ∈ ds, c ≠ Char.ofNat 0x2584) → ∀ c ∈ Nat.toDigitsCore 10 fuel n ds, c ≠ Char.ofNat 0x2584 := by
  induction fuel with
  | zero => intro n ds h; simpa [Nat.toDigitsCore] using h
  | succ f ih =>
    intro n ds h
    have hd : ∀ c ∈ Nat.digitChar (n % 10) :: ds, c ≠ Char.ofNat 0x2584 := by
      intro c hc
      rcases List.mem_cons.1 hc with rfl | hc
      · exact digitChar_ne_glyph _
      · exact h c hc
    unfold Nat.toDigitsCore
    by_cases h0 : n / 10 = 0
    · simpa [h0] using hd
    · simp only [h0, if_false]
      exact ih _ _ hd

theorem glyphCount_natRepr (n : Nat) : glyphCount (Nat.repr n) = 0 := by
  unfold glyphCount Nat.repr Nat.toDigits
  rw [List.count_eq_zero]
  intro hmem
  exact toDigitsCore_no_glyph _ _ [] (by simp) _ hmem rfl

theorem glyphCount_append (s t : String) : glyphCount (s ++ t) = glyphCount s + glyphCount t := by
  simp [glyphCount, String.data_append, List.count_append]

theorem glyphCount_toString (i : Int) : glyphCount (toString i) = 0 := by
  cases i with
  | ofNat m => exact glyphCount_natRepr m
  | negSucc m =>
    show glyphCount ("-" ++ Nat.repr (m + 1)) = 0
    rw [glyphCount_append, glyphCount_natRepr]
    decide

theorem foldl_append_init (l : List String) (b : String) :
    l.foldl (fun r s => r ++ s) b = b ++ l.foldl (fun r s => r ++ s) "" := by
  induction l generalizing b with
  | nil => simp
  | cons s l ih =>
    simp only [List.foldl_cons]
    rw [ih (b ++ s), ih ("" ++ s), String.empty_append, String.append_assoc]

theorem join_cons (s : String) (l : List String) : String.join (s :: l) = s ++ String.join l := by
  unfold String.join
  simp only [List.foldl_cons]
  rw [foldl_append_init, String.empty_append]

theorem join_append (l₁ l₂ : List String) :
    String.join (l₁ ++ l₂) = String.join l₁ ++ String.join l₂ := by
  induction l₁ with
  | nil => simp [String.join]
  | cons s l ih => rw [List.cons_append, join_cons, join_cons, ih, String.append_assoc]

theorem foldl_stream {α : Type} (f : α → String) (l : List α) (b : String) :
    l.foldl (fun buf a => buf ++ f a) b = b ++ String.join (l.map f) := by
  induction l generalizing b with
  | nil => simp [String.join]
  | cons a l ih =>
    simp only [List.foldl_cons, List.map_cons]
    rw [ih, join_cons, String.append_assoc]

theorem join_flatMap {α : Type} (g : α → List String) (l : List α) :
    String.join (l.flatMap g) = String.join (l.map fun a => String.join (g a)) := by
  induction l with
  | nil => simp [String.join]
  | cons a l ih => simp only [List.flatMap_cons, List.map_cons, join_append, join_cons, ih]

theorem glyphCount_join_of_one (l : List String) (h : ∀ s ∈ l, glyphCount s = 1) :
    glyphCount (String.join l) = l.length := by
  induction l with
  | nil => simp [String.join, glyphCount]
  | cons s l ih =>
    rw [join_cons, glyphCount_append, h s (List.mem_cons_self _ _),
      ih (fun t ht => h t (List.mem_cons_of_mem _ ht)), List.length_cons, Nat.add_comm]

theorem emitCell_eq (buf : String) (t b : Vec3 K) : emitCell buf t b = buf ++ specCell t b := by
  have e : "m▄" = "m" ++ String.singleton (Char.ofNat 0x2584) := by decide
  have e' : "m\x1b[38;2;" = "m" ++ "\x1b[38;2;" := by decide
  simp only [emitCell, specCell, e, e', String.append_assoc]

theorem glyphCount_specCell (t b : Vec3 K) : glyphCount (specCell t b) = 1 := by
  simp only [specCell, glyphCount_append, glyphCount_toString]
  decide

theorem rowLoop_eq (ws_col : Nat) (px : Int → Int → Vec3 K) (y : Nat) (buf : String) :
    rowLoop ws_col px y buf = buf ++ String.join ((List.range ws_col).map fun (c : Nat) =>
      specCell (px (2 * (c : Int)) (2 * (y : Int))) (px (2 * (c : Int)) (2 * (y : Int) + 1))) := by
  unfold rowLoop
  simp only [emitCell_eq, mul_comm _ (2 : Int)]
  exact foldl_stream _ _ _

theorem frame_eq (ws_row ws_col : Nat) (px : Int → Int → Vec3 K) :
    frame ws_row ws_col px = "\x1b[H\x1b[?25l\x1b[48;2;0;0;0m\x1b[38;2;255;255;255m"
      ++ String.join (specCells ws_row ws_col px) ++ "\x1b[0m" := by
  unfold frame specCells
  simp only [rowLoop_eq]
  rw [foldl_stream, join_flatMap]

theorem length_specCells (rows cols : Nat) (px : Int → Int → Vec3 K) :
    (specCells rows cols px).length = rows * cols := by
  unfold specCells
  induction rows with
  | zero => simp
  | succ n ih =>
    rw [List.range_succ, List.flatMap_append, List.length_append, ih]
    simp [Nat.succ_mul]

theorem glyphCount_frame (ws_row ws_col : Nat) (px : Int → Int → Vec3 K) :
    glyphCount (frame ws_row ws_col px) = ws_row * ws_col := by
  rw [frame_eq, glyphCount_append, glyphCount_append, glyphCount_join_of_one, length_specCells]
  · have h1 : glyphCount "\x1b[H\x1b[?25l\x1b[48;2;0;0;0m\x1b[38;2;255;255;255m" = 0 := by decide
    have h2 : glyphCount "\x1b[0m" = 0 := by decide
    rw [h1, h2]; omega
  · intro s hs
    unfold specCells at hs
    simp only [List.mem_flatMap, List.mem_map] at hs
    obtain ⟨r, _, c, _, rfl⟩ := hs
    exact glyphCount_specCell _ _

end EncoderLemmas


/-! ## Lemmas on vectors -/

section VectorLemmas

theorem magnitude_nonneg (v : Vec3 ℝ) : 0 ≤ magnitude v := Real.sqrt_nonneg _

theorem sumsq_nonneg (a b c : ℝ) : 0 ≤ a * a + b * b + c * c := by
  nlinarith [mul_self_nonneg a, mul_self_nonneg b, mul_self_nonneg c]

theorem magnitude_smul (k a b c : ℝ) (hk : 0 ≤ k) :
    magnitude ⟨k * a, k * b, k * c⟩ = k * magnitude ⟨a, b, c⟩ := by
  unfold magnitude
  have e : k * a * (k * a) + k * b * (k * b) + k * c * (k * c)
      = k ^ 2 * (a * a + b * b + c * c) := by ring
  simp only [e]
  rw [Real.sqrt_mul (sq_nonneg k), Real.sqrt_sq hk]

theorem normalize_smul (k a b c : ℝ) (hk : 0 < k) :
    normalize ⟨k * a, k * b, k * c⟩ = normalize ⟨a, b, c⟩ := by
  unfold normalize
  simp only [magnitude_smul k a b c hk.le]
  have hk' : k ≠ 0 := hk.ne'
  congr 1 <;> exact mul_div_mul_left _ _ hk'

theorem magnitude_pos_of_z (a b c : ℝ) (hc : c ≠ 0) : 0 < magnitude ⟨a, b, c⟩ := by
  unfold magnitude
  apply Real.sqrt_pos.2
  have : 0 < c * c := mul_self_pos.2 hc
  nlinarith [mul_self_nonneg a, mul_self_nonneg b]

end VectorLemmas

/-! ## The frame encoder -/

section EncoderClaims

variable {K : Type} [LinearOrderedField K] [FloorRing K]

/-- C1: for every terminal size and every pixel function (the shader at any
camera pose), the frame built by one pass of the main loop is the prologue,
then one cell per `(r, c)` in row-major order, then the SGR reset; the cell of
`(r, c)` carries the converted colour of pixel `(2c, 2r)` as background and of
pixel `(2c, 2r + 1)` as foreground, then the glyph U+2584.  The frame holds
exactly `rows * cols` glyphs: one for a 1 x 1 terminal, two for 1 row of 2
columns. -/
theorem frame_layout (rows cols : Nat) (px : Int → Int → Vec3 K) :
    frame rows cols px
        = "\x1b[H\x1b[?25l\x1b[48;2;0;0;0m\x1b[38;2;255;255;255m"
            ++ String.join (specCells rows cols px) ++ "\x1b[0m"
      ∧ (specCells rows cols px).length = rows * cols
      ∧ glyphCount (frame rows cols px) = rows * cols
      ∧ glyphCount (frame 1 1 px) = 1
      ∧ glyphCount (frame 1 2 px) = 2 :=
  ⟨frame_eq rows cols px, length_specCells rows cols px, glyphCount_frame rows cols px,
    glyphCount_frame 1 1 px, glyphCount_frame 1 2 px⟩

end EncoderClaims

/-! ## The primary ray -/

section PrimaryRayClaims

/-- C2: for `cols ≥ 1`, `rows ≥ 1`, every pixel and every camera pose, the
primary ray built by `getPixel` starts at the camera position and its direction
equals the direction defined in section 4.1 of the specification (negation
before the first normalize, re-normalize after the aspect correction). -/
theorem primaryRay_refines_spec (cols rows : Nat) (x y : Int) (p : Vec3 ℝ) (rot : Rotation)
    (hc : 1 ≤ cols) (hr : 1 ≤ rows) :
    (primaryRay cols rows x y p rot).pos = p
      ∧ (primaryRay cols rows x y p rot).dir = specDirection cols rows x y rot := by
  refine ⟨rfl, ?_⟩
  -- the two raw vectors have the same magnitude
  set a : ℝ := (x : ℝ) / (2 * (cols : ℝ)) - 0.5 with ha
  set b : ℝ := (y : ℝ) / (2 * (rows : ℝ)) - 0.5 with hb
  set k : ℝ := ((cols : ℝ) / 2) / (rows : ℝ) with hk
  have ea : ((x : ℝ) / ((cols * 2 : Nat) : ℝ)) * 1 - 0.5 = a := by
    rw [ha]; push_cast; ring
  have eb : ((y : ℝ) / ((rows * 2 : Nat) : ℝ)) * 1 - 0.5 = b := by
    rw [hb]; push_cast; ring
  have ek : ((cols : ℝ) / 2) / (rows : ℝ) = k := by
    rw [hk]
  set m : ℝ := magnitude ⟨a, b, 1⟩ with hm
  have hm' : magnitude ⟨a, -b, 1⟩ = m := by
    rw [hm]; unfold magnitude; congr 1; ring
  have hmpos : 0 < m := magnitude_pos_of_z a b 1 (by norm_num)
  -- the corrected vector and its magnitude
  set w : Vec3 ℝ := ⟨a / m * k, -(b / m), 1 / m⟩ with hw
  have hwpos : 0 < magnitude w :=
    magnitude_pos_of_z _ _ _ (div_pos (by norm_num) hmpos).ne'
  set n : ℝ := magnitude w with hn
  have lhs : (primaryRay cols rows x y p rot).dir =
      normalize
        (let d := normalize
            ⟨w.x, w.y * Real.cos rot.rot1 - w.z * Real.sin rot.rot1,
              w.y * Real.sin rot.rot1 + w.z * Real.cos rot.rot1⟩
         ⟨d.x * Real.cos rot.rot0 - d.z * Real.sin rot.rot0, d.y,
              d.x * Real.sin rot.rot0 + d.z * Real.cos rot.rot0⟩) := by
    simp only [primaryRay, normalize, ea, eb, ek, ← hm, hw]
  have rhs : specDirection cols rows x y rot =
      normalize
        (let d := normalize
            ⟨n⁻¹ * w.x, n⁻¹ * (w.y * Real.cos rot.rot1 - w.z * Real.sin rot.rot1),
              n⁻¹ * (w.y * Real.sin rot.rot1 + w.z * Real.cos rot.rot1)⟩
         ⟨d.x * Real.cos rot.rot0 - d.z * Real.sin rot.rot0, d.y,
              d.x * Real.sin rot.rot0 + d.z * Real.cos rot.rot0⟩) := by
    have e : specDirection cols rows x y rot =
      normalize
        (let d := normalize
            ⟨w.x / n, w.y / n * Real.cos rot.rot1 - w.z / n * Real.sin rot.rot1,
              w.y / n * Real.sin rot.rot1 + w.z / n * Real.cos rot.rot1⟩
         ⟨d.x * Real.cos rot.rot0 - d.z * Real.sin rot.rot0, d.y,
              d.x * Real.sin rot.rot0 + d.z * Real.cos rot.rot0⟩) := by
      simp only [specDirection, normalize, ← ha, ← hb, ← hk, hm', hw, neg_div, ← hn]
    have ev : (⟨w.x / n, w.y / n * Real.cos rot.rot1 - w.z / n * Real.sin rot.rot1,
        w.y / n * Real.sin rot.rot1 + w.z / n * Real.cos rot.rot1⟩ : Vec3 ℝ)
        = ⟨n⁻¹ * w.x, n⁻¹ * (w.y * Real.cos rot.rot1 - w.z * Real.sin rot.rot1),
            n⁻¹ * (w.y * Real.sin rot.rot1 + w.z * Real.cos rot.rot1)⟩ := by
      congr 1 <;> ring
    rw [e, ev]
  rw [lhs, rhs, normalize_smul _ _ _ _ (inv_pos.2 hwpos)]

/-- Witness of C2: a 1 x 1 terminal, pixel `(0, 1)`, the reference camera. -/
theorem primaryRay_refines_spec_witness :
    (primaryRay 1 1 0 1 ⟨0, 2, 0⟩ ⟨0, 0⟩).pos = ⟨0, 2, 0⟩
      ∧ (primaryRay 1 1 0 1 ⟨0, 2, 0⟩ ⟨0, 0⟩).dir = specDirection 1 1 0 1 ⟨0, 0⟩ :=
  primaryRay_refines_spec 1 1 0 1 ⟨0, 2, 0⟩ ⟨0, 0⟩ (le_refl 1) (le_refl 1)

end PrimaryRayClaims


/-! ## Lemmas on the stored intensity -/

section FloatStoreLemmas

theorem roundHalfEven_intCast (n : ℤ) : roundHalfEven (n : ℝ) = n := by
  unfold roundHalfEven
  simp

theorem roundHalfEven_half : roundHalfEven (1 / 2) = 0 := by
  have hf : ⌊(1 / 2 : ℝ)⌋ = 0 := by
    rw [Int.floor_eq_iff]; norm_num
  unfold roundHalfEven
  rw [hf]
  norm_num

theorem halfIntensity_of_normal (t : ℝ) (h : (1 / 2 : ℝ) ^ 126 ≤ |t * 0.5|) :
    halfIntensity t = t * 0.5 := by
  unfold halfIntensity
  rw [if_pos h]

theorem halfIntensity_one : halfIntensity 1 = 0.5 := by
  rw [halfIntensity_of_normal]
  · norm_num
  · rw [abs_of_nonneg (by norm_num)]
    have : (1 / 2 : ℝ) ^ 126 ≤ (1 / 2) ^ 1 :=
      pow_le_pow_of_le_one (by norm_num) (by norm_num) (by norm_num)
    linarith

theorem half_pow_mul_half (k : Nat) : (1 / 2 : ℝ) ^ k * 0.5 = (1 / 2) ^ (k + 1) := by
  rw [pow_succ]; norm_num

theorem halfIntensity_pow (k : Nat) (hk : k ≤ 148) :
    halfIntensity ((1 / 2) ^ k) = (1 / 2) ^ (k + 1) := by
  have hpos : (0 : ℝ) < (1 / 2) ^ (k + 1) := by positivity
  by_cases hn : k + 1 ≤ 126
  · rw [halfIntensity_of_normal, half_pow_mul_half]
    rw [half_pow_mul_half, abs_of_pos hpos]
    exact pow_le_pow_of_le_one (by norm_num) (by norm_num) hn
  · have hlt : (1 / 2 : ℝ) ^ (k + 1) < (1 / 2) ^ 126 :=
      pow_lt_pow_right_of_lt_one₀ (by norm_num) (by norm_num) (by omega)
    unfold halfIntensity
    rw [half_pow_mul_half, abs_of_pos hpos, if_neg (not_le.2 hlt)]
    have e : (1 / 2 : ℝ) ^ (k + 1) * 2 ^ 149 = (((2 : ℤ) ^ (148 - k) : ℤ) : ℝ) := by
      have h149 : (149 : ℕ) = (148 - k) + (k + 1) := by omega
      rw [h149, pow_add]
      push_cast
      have : (1 / 2 : ℝ) ^ (k + 1) * 2 ^ (k + 1) = 1 := by
        rw [← mul_pow]; norm_num
      linear_combination (2 : ℝ) ^ (148 - k) * this
    rw [e, roundHalfEven_intCast]
    have h149 : (149 : ℕ) = (148 - k) + (k + 1) := by omega
    push_cast
    have e2 : (1 / 2 : ℝ) ^ 149 = (1 / 2) ^ (148 - k) * (1 / 2) ^ (k + 1) := by
      rw [← pow_add, ← h149]
    rw [e2]
    have : (2 : ℝ) ^ (148 - k) * (1 / 2) ^ (148 - k) = 1 := by
      rw [← mul_pow]; norm_num
    linear_combination (1 / 2 : ℝ) ^ (k + 1) * this

theorem halfIntensity_pow_last : halfIntensity ((1 / 2) ^ 149) = 0 := by
  have hpos : (0 : ℝ) < (1 / 2) ^ (149 + 1) := by positivity
  have hlt : (1 / 2 : ℝ) ^ (149 + 1) < (1 / 2) ^ 126 :=
    pow_lt_pow_right_of_lt_one₀ (by norm_num) (by norm_num) (by norm_num)
  unfold halfIntensity
  rw [half_pow_mul_half, abs_of_pos hpos, if_neg (not_le.2 hlt)]
  have e : (1 / 2 : ℝ) ^ (149 + 1) * 2 ^ 149 = 1 / 2 := by
    rw [pow_succ]
    have : (1 / 2 : ℝ) ^ 149 * 2 ^ 149 = 1 := by
      rw [← mul_pow]; norm_num
    linear_combination (1 / 2 : ℝ) * this
  rw [e, roundHalfEven_half]
  simp

end FloatStoreLemmas

/-! ## The ray marcher -/

section MarcherLemmas

theorem vec_add_sub_cancel (c p : Vec3 ℝ) : c + (p - c) = p := by
  ext
  · show c.x + (p.x - c.x) = p.x; ring
  · show c.y + (p.y - c.y) = p.y; ring
  · show c.z + (p.z - c.z) = p.z; ring

theorem tmod_two_eq_zero_iff (a : Int) : Int.tmod a 2 = 0 ↔ a % 2 = 0 := by
  constructor
  · intro h
    have e := Int.tmod_add_tdiv a 2
    rw [h] at e
    omega
  · intro h
    exact Int.tmod_eq_zero_of_dvd (Int.dvd_of_emod_eq_zero h)

theorem tileBrightness_eq_specParity {K : Type} [LinearOrderedField K] [FloorRing K] (x z : K) :
    tileBrightness x z = specParity toInt x z := by
  unfold tileBrightness specParity
  simp only [tmod_two_eq_zero_iff]
  by_cases hx : x < 0 <;> by_cases hz : z < 0 <;> simp [hx, hz]

/-- Every point at or below the floor plane is at distance at least 2 from the
sphere centre. -/
theorem two_le_distance_of_below (p : Vec3 ℝ) (hy : p.y ≤ 0) : 2 ≤ distance p sphere.pos := by
  unfold distance magnitude
  show 2 ≤ Real.sqrt ((p.x - 0) * (p.x - 0) + (p.y - 2) * (p.y - 2) + (p.z - 8) * (p.z - 8))
  apply Real.le_sqrt_of_sq_le
  nlinarith [mul_self_nonneg (p.x - 0), mul_self_nonneg (p.z - 8), mul_nonneg_of_nonpos_of_nonpos hy hy]

/-- A ray that starts at or below the floor plane resolves the floor in the
first iteration of the loop. -/
theorem raycastLoop_floor_first (lastRay ray : RayHitInfo) (fuel : Nat) (hy : ray.pos.y ≤ 0) :
    raycastLoop lastRay (fuel + 1) ray 0 =
      some { ray := { ray with
                      color := if tileBrightness ray.pos.x ray.pos.z then ⟨255, 255, 255⟩
                               else ⟨0, 0, 0⟩,
                      hitSky := false, normal := ⟨0, 1, 0⟩ },
             traveled := 0, surface := Surface.floor } := by
  have h2 := two_le_distance_of_below ray.pos hy
  have hs : ¬ (distance ray.pos sphere.pos - 1 ≤ (0 : ℝ) / 512) := by
    norm_num; linarith
  have hf : ray.pos.y ≤ (0 : ℝ) / 512 := by norm_num; exact hy
  have hi : (0 : ℝ) < 65536 := by norm_num
  simp only [raycastLoop, hi, hs, hf, if_true, if_false]

/-- What the marching loop returns, exit by exit, in terms of the position `p`
the ray had reached. -/
theorem raycastLoop_exit (lastRay : RayHitInfo) (fuel : Nat) : ∀ (ray : RayHitInfo) (i : ℝ) (m : March),
    raycastLoop lastRay fuel ray i = some m →
    ∃ p : Vec3 ℝ,
      (m.surface = Surface.sphere →
        m.ray = { color := sphere.color, normal := normalize (p - sphere.pos),
                  dir := ray.dir - ((normalize (p - sphere.pos)).scale 2).scale
                    (dot ray.dir (normalize (p - sphere.pos))),
                  pos := sphere.pos + (p - sphere.pos),
                  nextIntensity := halfIntensity lastRay.nextIntensity, hitSky := false }
          ∧ distance p sphere.pos - 1 ≤ m.traveled / 512)
      ∧ (m.surface = Surface.floor →
        m.ray = { ray with
                  pos := p,
                  color := if tileBrightness p.x p.z then ⟨255, 255, 255⟩
                           else ⟨0, 0, 0⟩,
                  hitSky := false, normal := ⟨0, 1, 0⟩ }
          ∧ p.y ≤ m.traveled / 512)
      ∧ (m.surface = Surface.sky → m.ray = { ray with pos := p } ∧ 65536 ≤ m.traveled) := by
  induction fuel with
  | zero => intro ray i m h; simp [raycastLoop] at h
  | succ n ih =>
    intro ray i m h
    unfold raycastLoop at h
    by_cases hi : i < 65536
    · rw [if_pos hi] at h
      by_cases hs : distance ray.pos sphere.pos - 1 ≤ i / 512
      · simp only [hs, if_true, Option.some.injEq] at h
        subst h
        exact ⟨ray.pos, fun _ => ⟨rfl, hs⟩, (fun hh => by simp at hh), (fun hh => by simp at hh)⟩
      · simp only [hs, if_false] at h
        by_cases hf : ray.pos.y ≤ i / 512
        · simp only [hf, if_true, Option.some.injEq] at h
          subst h
          exact ⟨ray.pos, (fun hh => by simp at hh), fun _ => ⟨rfl, hf⟩, (fun hh => by simp at hh)⟩
        · simp only [hf, if_false] at h
          obtain ⟨p, h1, h2, h3⟩ := ih _ _ m h
          exact ⟨p, h1, h2, h3⟩
    · rw [if_neg hi] at h
      simp only [Option.some.injEq] at h
      subst h
      exact ⟨ray.pos, (fun hh => by simp at hh), (fun hh => by simp at hh),
        fun _ => ⟨rfl, not_lt.1 hi⟩⟩

theorem toInt_of_nonneg {K : Type} [LinearOrderedField K] [FloorRing K] (v : K) (n : Int)
    (h0 : 0 ≤ v) (h1 : (n : K) ≤ v) (h2 : v < n + 1) : toInt v = n := by
  unfold toInt
  rw [if_pos h0, Int.floor_eq_iff]
  exact ⟨h1, h2⟩

theorem toInt_of_neg {K : Type} [LinearOrderedField K] [FloorRing K] (v : K) (n : Int)
    (h0 : v < 0) (h1 : (n : K) - 1 < v) (h2 : v ≤ n) : toInt v = n := by
  unfold toInt
  rw [if_neg (not_le.2 h0), Int.ceil_eq_iff]
  exact ⟨h1, h2⟩

theorem skyTint_of_hit (ray : RayHitInfo) (h : ray.hitSky = false) : skyTint ray = ray := by
  unfold skyTint
  simp [h]

/-- `raycast` on a ray that starts at or below the floor plane: the floor is
resolved in the first iteration, at the origin of the ray. -/
theorem raycastTraced_floor_first (lastRay : RayHitInfo) (fuel : Nat) (hy : lastRay.pos.y ≤ 0) :
    raycastTraced (fuel + 1) lastRay =
      some { ray := { color := if tileBrightness lastRay.pos.x lastRay.pos.z
                               then ⟨255, 255, 255⟩ else ⟨0, 0, 0⟩,
                      pos := lastRay.pos, dir := lastRay.dir, normal := ⟨0, 1, 0⟩,
                      nextIntensity := 0, hitSky := false },
             traveled := 0, surface := Surface.floor } := by
  unfold raycastTraced
  have h := raycastLoop_floor_first lastRay
    { pos := lastRay.pos, dir := lastRay.dir, color := SKY_COLOR, hitSky := true,
      nextIntensity := 0, normal := ⟨0, 0, 0⟩ } fuel hy
  simp only [h, Option.map_some', skyTint_of_hit]

theorem tileBrightness_half_half : tileBrightness (0.5 : ℝ) (0.5 : ℝ) = true := by
  have e : toInt (0.5 : ℝ) = 0 := toInt_of_nonneg _ 0 (by norm_num) (by norm_num) (by norm_num)
  have hx : ¬ ((0.5 : ℝ) < 0) := by norm_num
  simp only [tileBrightness, e, hx, if_false]
  decide

theorem tileBrightness_three_halves_half : tileBrightness (1.5 : ℝ) (0.5 : ℝ) = false := by
  have e : toInt (0.5 : ℝ) = 0 := toInt_of_nonneg _ 0 (by norm_num) (by norm_num) (by norm_num)
  have e' : toInt (1.5 : ℝ) = 1 := toInt_of_nonneg _ 1 (by norm_num) (by norm_num) (by norm_num)
  have hx : ¬ ((0.5 : ℝ) < 0) := by norm_num
  have hx' : ¬ ((1.5 : ℝ) < 0) := by norm_num
  simp only [tileBrightness, e, e', hx, hx', if_false]
  decide

theorem tileBrightness_neg_half_half : tileBrightness (-0.5 : ℝ) (0.5 : ℝ) = false := by
  have e : toInt (0.5 : ℝ) = 0 := toInt_of_nonneg _ 0 (by norm_num) (by norm_num) (by norm_num)
  have e' : toInt (-0.5 : ℝ) = 0 := toInt_of_neg _ 0 (by norm_num) (by norm_num) (by norm_num)
  have hx : ¬ ((0.5 : ℝ) < 0) := by norm_num
  have hx' : (-0.5 : ℝ) < 0 := by norm_num
  simp only [tileBrightness, e, e', hx, hx', if_false, if_true]
  decide

theorem vec_sub_def (a b : Vec3 ℝ) : a - b = ⟨a.x - b.x, a.y - b.y, a.z - b.z⟩ := rfl

theorem vec_add_def (a b : Vec3 ℝ) : a + b = ⟨a.x + b.x, a.y + b.y, a.z + b.z⟩ := rfl

/-- Distance to the sphere centre from a point of the line `x = 0, y = 2` in
front of the centre. -/
theorem distance_axis (z : ℝ) (hz : z ≤ 8) : distance ⟨0, 2, z⟩ sphere.pos = 8 - z := by
  unfold distance magnitude
  simp only [vec_sub_def, sphere]
  have e : (0 - 0 : ℝ) * (0 - 0) + (2 - 2) * (2 - 2) + (z - 8) * (z - 8) = (8 - z) ^ 2 := by ring
  rw [e, Real.sqrt_sq (by linarith)]

/-- One iteration of the marching loop on the line `x = 0, y = 2` along
`(0, 0, 1)` that ends in no hit. -/
theorem raycastLoop_axis_step (lastRay : RayHitInfo) (fuel : Nat) (c n : Vec3 ℝ) (ni : ℝ) (hs : Bool)
    (z i d z' i' : ℝ) (hz : z ≤ 8) (hi : i < 65536) (h1 : i / 512 < 7 - z) (h2 : i / 512 < 2)
    (hd : min 2 (7 - z) = d) (ez : z + d * 1.01 = z') (ei : i + d = i') :
    raycastLoop lastRay (fuel + 1) ⟨c, ⟨0, 2, z⟩, ⟨0, 0, 1⟩, n, ni, hs⟩ i
      = raycastLoop lastRay fuel ⟨c, ⟨0, 2, z'⟩, ⟨0, 0, 1⟩, n, ni, hs⟩ i' := by
  have hdist : distance ⟨0, 2, z⟩ sphere.pos - 1 = 7 - z := by
    rw [distance_axis z hz]; ring
  have hA : ¬ (7 - z ≤ i / 512) := not_le.2 h1
  have hB : ¬ ((2 : ℝ) ≤ i / 512) := not_le.2 h2
  have hp : (⟨0, 2, z⟩ : Vec3 ℝ) + (Vec3.scale (Vec3.scale ⟨0, 0, 1⟩ d) 1.01) = ⟨0, 2, z'⟩ := by
    rw [← ez]
    simp only [vec_add_def, Vec3.scale]
    congr 1 <;> ring
  rw [raycastLoop]
  simp only [hdist, hi, hA, hB, if_true, if_false, hd, hp, ei]

/-- The iteration of the marching loop on the line `x = 0, y = 2` along
`(0, 0, 1)` in which the sphere is reached. -/
theorem raycastLoop_axis_hit (lastRay : RayHitInfo) (fuel : Nat) (c n : Vec3 ℝ) (ni : ℝ) (hs : Bool)
    (z i : ℝ) (hz : z < 8) (hi : i < 65536) (h1 : 7 - z ≤ i / 512) :
    raycastLoop lastRay (fuel + 1) ⟨c, ⟨0, 2, z⟩, ⟨0, 0, 1⟩, n, ni, hs⟩ i
      = some { ray := { color := ⟨250, 0, 0⟩, pos := ⟨0, 2, z⟩, dir := ⟨0, 0, -1⟩,
                        normal := ⟨0, 0, -1⟩, nextIntensity := halfIntensity lastRay.nextIntensity,
                        hitSky := false },
               traveled := i, surface := Surface.sphere } := by
  have hdist : distance ⟨0, 2, z⟩ sphere.pos - 1 = 7 - z := by
    rw [distance_axis z hz.le]; ring
  have hm : magnitude ((⟨0, 2, z⟩ : Vec3 ℝ) - sphere.pos) = 8 - z := distance_axis z hz.le
  have hne : (8 - z) ≠ 0 := by linarith
  have hn : normalize ((⟨0, 2, z⟩ : Vec3 ℝ) - sphere.pos) = ⟨0, 0, -1⟩ := by
    unfold normalize
    simp only [hm]
    simp only [vec_sub_def, sphere]
    congr 1
    · norm_num
    · norm_num
    · rw [div_eq_iff hne]; ring
  have hdir : (⟨0, 0, 1⟩ : Vec3 ℝ) - (Vec3.scale (Vec3.scale ⟨0, 0, -1⟩ 2) (dot ⟨0, 0, 1⟩ ⟨0, 0, -1⟩))
      = ⟨0, 0, -1⟩ := by
    simp only [vec_sub_def, Vec3.scale, dot]
    congr 1 <;> norm_num
  rw [raycastLoop]
  simp only [hdist, hi, h1, if_true, hn, hdir, vec_add_sub_cancel]
  rfl

/-- The march of the ray from `(0, 2, 0)` along `(0, 0, 1)`: four steps of
length 2, 2, 2 and 0.94, then the sphere is hit at `z = 7.0094` after
traveling 6.94. -/
theorem raycastTraced_center (lastRay : RayHitInfo) (fuel : Nat) :
    raycastTraced (fuel + 5) { lastRay with pos := ⟨0, 2, 0⟩, dir := ⟨0, 0, 1⟩ }
      = some { ray := { color := ⟨250, 0, 0⟩, pos := ⟨0, 2, 7.0094⟩, dir := ⟨0, 0, -1⟩,
                        normal := ⟨0, 0, -1⟩, nextIntensity := halfIntensity lastRay.nextIntensity,
                        hitSky := false },
               traveled := 6.94, surface := Surface.sphere } := by
  unfold raycastTraced
  simp only []
  rw [raycastLoop_axis_step _ (fuel + 4) _ _ _ _ 0 0 2 2.02 2 (by norm_num) (by norm_num)
        (by norm_num) (by norm_num) (min_eq_left (by norm_num)) (by norm_num) (by norm_num),
      raycastLoop_axis_step _ (fuel + 3) _ _ _ _ 2.02 2 2 4.04 4 (by norm_num) (by norm_num)
        (by norm_num) (by norm_num) (min_eq_left (by norm_num)) (by norm_num) (by norm_num),
      raycastLoop_axis_step _ (fuel + 2) _ _ _ _ 4.04 4 2 6.06 6 (by norm_num) (by norm_num)
        (by norm_num) (by norm_num) (min_eq_left (by norm_num)) (by norm_num) (by norm_num),
      raycastLoop_axis_step _ (fuel + 1) _ _ _ _ 6.06 6 0.94 7.0094 6.94 (by norm_num)
        (by norm_num) (by norm_num) (by norm_num)
        (by rw [min_eq_right (by norm_num)]; norm_num) (by norm_num) (by norm_num),
      raycastLoop_axis_hit _ fuel _ _ _ _ 7.0094 6.94 (by norm_num) (by norm_num) (by norm_num)]
  simp only [Option.map_some', skyTint_of_hit]

theorem magnitude_mul_self (v : Vec3 ℝ) : magnitude v * magnitude v = dot v v := by
  unfold magnitude dot
  exact Real.mul_self_sqrt (sumsq_nonneg _ _ _)

theorem magnitude_eq_one_of_dot (v : Vec3 ℝ) (h : dot v v = 1) : magnitude v = 1 := by
  unfold magnitude
  unfold dot at h
  rw [h, Real.sqrt_one]

theorem magnitude_pos_of_ne (p c : Vec3 ℝ) (h : p ≠ c) : 0 < magnitude (p - c) := by
  rcases (magnitude_nonneg (p - c)).lt_or_eq with hlt | heq
  · exact hlt
  · exfalso
    apply h
    have h0 : dot (p - c) (p - c) = 0 := by rw [← magnitude_mul_self, ← heq]; ring
    simp only [dot, vec_sub_def] at h0
    have hx : p.x - c.x = 0 := by
      nlinarith [mul_self_nonneg (p.x - c.x), mul_self_nonneg (p.y - c.y), mul_self_nonneg (p.z - c.z)]
    have hy : p.y - c.y = 0 := by
      nlinarith [mul_self_nonneg (p.x - c.x), mul_self_nonneg (p.y - c.y), mul_self_nonneg (p.z - c.z)]
    have hz : p.z - c.z = 0 := by
      nlinarith [mul_self_nonneg (p.x - c.x), mul_self_nonneg (p.y - c.y), mul_self_nonneg (p.z - c.z)]
    ext <;> linarith

theorem dot_normalize_self (v : Vec3 ℝ) (h : 0 < magnitude v) :
    dot (normalize v) (normalize v) = 1 := by
  have hm := magnitude_mul_self v
  unfold dot at hm
  unfold normalize dot
  simp only []
  have hne : magnitude v ≠ 0 := h.ne'
  field_simp
  linarith

theorem dot_normalize_left (v : Vec3 ℝ) (h : 0 < magnitude v) :
    dot (normalize v) v = magnitude v := by
  have hm := magnitude_mul_self v
  unfold dot at hm
  unfold normalize dot
  simp only []
  have hne : magnitude v ≠ 0 := h.ne'
  field_simp
  linarith

/-- The record returned by `raycast` for a sphere hit, in terms of the position
`p` at which the sphere test fired. -/
theorem raycastTraced_sphere (fuel : Nat) (lastRay : RayHitInfo) (m : March)
    (h : raycastTraced fuel lastRay = some m) (hs : m.surface = Surface.sphere) :
    m.ray = { color := sphere.color, normal := normalize (m.ray.pos - sphere.pos),
              dir := lastRay.dir - ((normalize (m.ray.pos - sphere.pos)).scale 2).scale
                (dot lastRay.dir (normalize (m.ray.pos - sphere.pos))),
              pos := m.ray.pos,
              nextIntensity := halfIntensity lastRay.nextIntensity, hitSky := false }
      ∧ distance m.ray.pos sphere.pos - 1 ≤ m.traveled / 512 := by
  unfold raycastTraced at h
  simp only [Option.map_eq_some'] at h
  obtain ⟨m0, h0, rfl⟩ := h
  obtain ⟨p, hsp, -, -⟩ := raycastLoop_exit _ _ _ _ _ h0
  obtain ⟨e, hd⟩ := hsp hs
  have hsky : m0.ray.hitSky = false := by rw [e]
  simp only [skyTint_of_hit _ hsky]
  have hp : m0.ray.pos = p := by rw [e]; exact vec_add_sub_cancel _ _
  rw [hp]
  refine ⟨?_, hd⟩
  rw [e, vec_add_sub_cancel]

/-- More fuel does not change a result the loop has already produced. -/
theorem raycastLoop_fuel_succ (lastRay : RayHitInfo) (fuel : Nat) :
    ∀ (ray : RayHitInfo) (i : ℝ) (m : March),
      raycastLoop lastRay fuel ray i = some m → raycastLoop lastRay (fuel + 1) ray i = some m := by
  induction fuel with
  | zero => intro ray i m h; simp [raycastLoop] at h
  | succ n ih =>
    intro ray i m h
    rw [raycastLoop] at h
    rw [raycastLoop]
    by_cases hi : i < 65536
    · rw [if_pos hi] at h ⊢
      by_cases hs : distance ray.pos sphere.pos - 1 ≤ i / 512
      · simp only [hs, if_true] at h ⊢
        exact h
      · simp only [hs, if_false] at h ⊢
        by_cases hf : ray.pos.y ≤ i / 512
        · simp only [hf, if_true] at h ⊢
          exact h
        · simp only [hf, if_false] at h ⊢
          exact ih _ _ _ h
    · rw [if_neg hi] at h ⊢
      exact h

theorem raycastLoop_fuel_mono (lastRay : RayHitInfo) (fuel fuel' : Nat) (hle : fuel ≤ fuel')
    (ray : RayHitInfo) (i : ℝ) (m : March) (h : raycastLoop lastRay fuel ray i = some m) :
    raycastLoop lastRay fuel' ray i = some m := by
  induction hle with
  | refl => exact h
  | step _ ih => exact raycastLoop_fuel_succ _ _ _ _ _ ih

/-- Once the traveled distance is positive it grows by the factor `513/512` in
every iteration without a hit, so the loop ends within `n + 1` iterations when
`i * (513/512)^n` reaches the cap. -/
theorem raycastLoop_terminates_pos (lastRay : RayHitInfo) (n : Nat) :
    ∀ (ray : RayHitInfo) (i : ℝ), 0 < i → 65536 ≤ i * (513 / 512 : ℝ) ^ n →
      ∃ m, raycastLoop lastRay (n + 1) ray i = some m := by
  induction n with
  | zero =>
    intro ray i _ hcap
    have hi : ¬ i < 65536 := by
      rw [pow_zero, mul_one] at hcap; exact not_lt.2 hcap
    exact ⟨_, by rw [raycastLoop, if_neg hi]⟩
  | succ n ih =>
    intro ray i hpos hcap
    rw [raycastLoop]
    by_cases hi : i < 65536
    · rw [if_pos hi]
      by_cases hs : distance ray.pos sphere.pos - 1 ≤ i / 512
      · simp only [hs, if_true]
        exact ⟨_, rfl⟩
      · simp only [hs, if_false]
        by_cases hf : ray.pos.y ≤ i / 512
        · simp only [hf, if_true]
          exact ⟨_, rfl⟩
        · simp only [hf, if_false]
          have hmin : i / 512 < min ray.pos.y (distance ray.pos sphere.pos - 1) :=
            lt_min (not_le.1 hf) (not_le.1 hs)
          apply ih
          · have : 0 < i / 512 := by positivity
            linarith
          · have hq : (0 : ℝ) ≤ (513 / 512 : ℝ) ^ n := by positivity
            have hstep : i * (513 / 512) ≤ i + min ray.pos.y (distance ray.pos sphere.pos - 1) := by
              linarith
            calc (65536 : ℝ) ≤ i * (513 / 512 : ℝ) ^ (n + 1) := hcap
              _ = i * (513 / 512) * (513 / 512 : ℝ) ^ n := by ring
              _ ≤ (i + min ray.pos.y (distance ray.pos sphere.pos - 1)) * (513 / 512 : ℝ) ^ n :=
                  mul_le_mul_of_nonneg_right hstep hq
    · rw [if_neg hi]
      exact ⟨_, rfl⟩

/-- The marching loop started at `i = 0` ends for every ray. -/
theorem raycastLoop_terminates (lastRay ray : RayHitInfo) :
    ∃ fuel m, raycastLoop lastRay fuel ray 0 = some m := by
  by_cases hs : distance ray.pos sphere.pos - 1 ≤ (0 : ℝ) / 512
  · have h0 : (0 : ℝ) < 65536 := by norm_num
    refine ⟨1, ?_⟩
    rw [raycastLoop]
    simp only [h0, hs, if_true]
    exact ⟨_, rfl⟩
  · by_cases hf : ray.pos.y ≤ (0 : ℝ) / 512
    · have h0 : (0 : ℝ) < 65536 := by norm_num
      refine ⟨1, ?_⟩
      rw [raycastLoop]
      simp only [h0, hs, hf, if_true, if_false]
      exact ⟨_, rfl⟩
    · have hmin : (0 : ℝ) / 512 < min ray.pos.y (distance ray.pos sphere.pos - 1) :=
        lt_min (not_le.1 hf) (not_le.1 hs)
      rw [zero_div] at hmin
      obtain ⟨n, hn⟩ := pow_unbounded_of_one_lt
        (65536 / min ray.pos.y (distance ray.pos sphere.pos - 1)) (by norm_num : (1 : ℝ) < 513 / 512)
      have hcap : 65536 ≤ (0 + min ray.pos.y (distance ray.pos sphere.pos - 1)) * (513 / 512 : ℝ) ^ n := by
        rw [zero_add]
        rw [div_lt_iff₀ hmin] at hn
        linarith
      obtain ⟨m, hm⟩ := raycastLoop_terminates_pos lastRay n
        { ray with pos := ray.pos + (ray.dir.scale (min ray.pos.y (distance ray.pos sphere.pos - 1))).scale 1.01 }
        (0 + min ray.pos.y (distance ray.pos sphere.pos - 1)) (by rw [zero_add]; exact hmin) hcap
      refine ⟨n + 2, m, ?_⟩
      rw [raycastLoop]
      have h0 : (0 : ℝ) < 65536 := by norm_num
      simp only [h0, hs, hf, if_true, if_false]
      exact hm

/-- `raycast` returns for every ray, given enough fuel. -/
theorem raycast_terminates (lastRay : RayHitInfo) :
    ∃ fuel, ∀ fuel', fuel ≤ fuel' → ∃ r, raycast fuel' lastRay = some r := by
  obtain ⟨fuel, m, h⟩ := raycastLoop_terminates lastRay
    { pos := lastRay.pos, dir := lastRay.dir, color := SKY_COLOR, hitSky := true,
      nextIntensity := 0, normal := ⟨0, 0, 0⟩ }
  refine ⟨fuel, fun fuel' hle => ?_⟩
  have h' := raycastLoop_fuel_mono _ _ _ hle _ _ _ h
  exact ⟨skyTint m.ray, by simp only [raycast, raycastTraced, h', Option.map_some']⟩

/-- On the lines `x = y - δ, z = 0` (`0 ≤ δ ≤ 1`) the distance to the sphere
exceeds the height above the floor. -/
theorem sphere_farther_than_floor (y δ : ℝ) (hy : 0 < y) (hδ1 : δ ≤ 1) :
    y < distance ⟨y - δ, y, 0⟩ sphere.pos - 1 := by
  unfold distance magnitude
  simp only [vec_sub_def, sphere]
  have h : y + 1 < Real.sqrt ((y - δ - 0) * (y - δ - 0) + (y - 2) * (y - 2) + (0 - 8) * (0 - 8)) := by
    rw [Real.lt_sqrt (by linarith)]
    nlinarith [sq_nonneg (y - δ - 3)]
  linarith

/-- A ray that climbs along `(c, c, 0)` from a point `(y - δ, y, 0)` above the
floor never meets the floor or the sphere: the loop runs until the cap and
leaves the ray on the same line. -/
theorem raycastLoop_sunward (lastRay : RayHitInfo) (col n : Vec3 ℝ) (ni : ℝ) (hs : Bool)
    (c δ y0 : ℝ) (hc : 1 / 2 ≤ c) (hδ1 : δ ≤ 1) (hy0 : 0 < y0) :
    ∀ (k : Nat) (y i : ℝ), y0 ≤ y → 0 ≤ i → i < 512 * y → 65536 - i ≤ k * y0 →
      ∃ yf tf, 0 < yf ∧
        raycastLoop lastRay (k + 1) ⟨col, ⟨y - δ, y, 0⟩, ⟨c, c, 0⟩, n, ni, hs⟩ i
          = some ⟨⟨col, ⟨yf - δ, yf, 0⟩, ⟨c, c, 0⟩, n, ni, hs⟩, tf, Surface.sky⟩ := by
  intro k
  induction k with
  | zero =>
    intro y i hy _ _ hcap
    have hi : ¬ i < 65536 := by
      simp only [Nat.cast_zero, zero_mul] at hcap
      exact not_lt.2 (by linarith)
    exact ⟨y, i, lt_of_lt_of_le hy0 hy, by rw [raycastLoop, if_neg hi]⟩
  | succ k ih =>
    intro y i hy hi0 hiy hcap
    have hypos : 0 < y := lt_of_lt_of_le hy0 hy
    by_cases hi : i < 65536
    · have hsph := sphere_farther_than_floor y δ hypos hδ1
      have hbias : i / 512 < y := by
        rw [div_lt_iff₀ (by norm_num : (0 : ℝ) < 512)]; linarith
      have hA : ¬ (distance ⟨y - δ, y, 0⟩ sphere.pos - 1 ≤ i / 512) := not_le.2 (by linarith)
      have hB : ¬ (y ≤ i / 512) := not_le.2 hbias
      have hmin : min y (distance ⟨y - δ, y, 0⟩ sphere.pos - 1) = y := min_eq_left hsph.le
      have hp : (⟨y - δ, y, 0⟩ : Vec3 ℝ) + (Vec3.scale (Vec3.scale ⟨c, c, 0⟩ y) 1.01)
          = ⟨(y + c * y * 1.01) - δ, y + c * y * 1.01, 0⟩ := by
        simp only [vec_add_def, Vec3.scale]
        congr 1 <;> ring
      have hcy : 0 ≤ c * y * 1.01 := by
        have : 0 ≤ c := by linarith
        positivity
      have hgrow : y ≤ 512 * (c * y * 1.01) := by nlinarith
      obtain ⟨yf, tf, hyf, hrec⟩ := ih (y + c * y * 1.01) (i + y) (by linarith) (by linarith)
        (by linarith) (by push_cast at hcap; linarith)
      refine ⟨yf, tf, hyf, ?_⟩
      rw [raycastLoop]
      simp only [hi, hA, hB, if_true, if_false, hmin, hp]
      exact hrec
    · exact ⟨y, i, hypos, by rw [raycastLoop, if_neg hi]⟩

/-- The march of `raycastLoop_sunward` from `i = 0`, for any amount of fuel
beyond a bound. -/
theorem raycastLoop_sunward_sky (lastRay : RayHitInfo) (col n : Vec3 ℝ) (ni : ℝ) (hs : Bool)
    (c δ y0 : ℝ) (hc : 1 / 2 ≤ c) (hδ1 : δ ≤ 1) (hy0 : 0 < y0) :
    ∃ fuel yf tf, 0 < yf ∧ ∀ fuel', fuel ≤ fuel' →
      raycastLoop lastRay fuel' ⟨col, ⟨y0 - δ, y0, 0⟩, ⟨c, c, 0⟩, n, ni, hs⟩ 0
        = some ⟨⟨col, ⟨yf - δ, yf, 0⟩, ⟨c, c, 0⟩, n, ni, hs⟩, tf, Surface.sky⟩ := by
  have hk : (65536 : ℝ) - 0 ≤ (⌈(65536 : ℝ) / y0⌉₊ : ℝ) * y0 := by
    have := Nat.le_ceil ((65536 : ℝ) / y0)
    rw [div_le_iff₀ hy0] at this
    linarith
  obtain ⟨yf, tf, hyf, h⟩ := raycastLoop_sunward lastRay col n ni hs c δ y0 hc hδ1 hy0
    ⌈(65536 : ℝ) / y0⌉₊ y0 0 (le_refl _) (le_refl _) (by linarith) hk
  exact ⟨_, yf, tf, hyf, fun fuel' hle => raycastLoop_fuel_mono _ _ _ hle _ _ _ h⟩

theorem magnitude_sun : magnitude ⟨1, 1, 0⟩ = Real.sqrt 2 := by
  unfold magnitude
  norm_num

theorem sqrt_two_le_two : Real.sqrt 2 ≤ 2 := by
  rw [Real.sqrt_le_iff]
  norm_num

theorem normalize_sun :
    normalize ⟨1, 1, 0⟩ = ⟨1 / Real.sqrt 2, 1 / Real.sqrt 2, 0⟩ := by
  unfold normalize
  simp only [magnitude_sun, zero_div]

theorem half_le_inv_sqrt_two : (1 : ℝ) / 2 ≤ 1 / Real.sqrt 2 :=
  one_div_le_one_div_of_le (Real.sqrt_pos.2 (by norm_num)) sqrt_two_le_two

theorem inv_sqrt_two_lt_one : 1 / Real.sqrt 2 < 1 := by
  rw [div_lt_one (Real.sqrt_pos.2 (by norm_num)), Real.lt_sqrt (by norm_num)]
  norm_num

theorem distance_self (v : Vec3 ℝ) : distance v v = 0 := by
  unfold distance magnitude
  simp only [vec_sub_def, sub_self, mul_zero, add_zero, Real.sqrt_zero]

theorem tileBrightness_zero_zero : tileBrightness (0 : ℝ) (0 : ℝ) = true := by
  have e : toInt (0 : ℝ) = 0 := toInt_of_nonneg _ 0 (by norm_num) (by norm_num) (by norm_num)
  have hx : ¬ ((0 : ℝ) < 0) := by norm_num
  simp only [tileBrightness, e, hx, if_false]
  decide

/-- `raycast` from a point `(a, a, 0)`, `a > 0`, toward the sun reaches the cap
and returns the brightened sky colour. -/
theorem raycastTraced_sun_line (lastRay : RayHitInfo) (a : ℝ) (ha : 0 < a) :
    ∃ fuel, ∀ fuel', fuel ≤ fuel' →
      ∃ m, raycastTraced fuel' { lastRay with pos := ⟨a, a, 0⟩, dir := normalize ⟨1, 1, 0⟩ } = some m
        ∧ m.surface = Surface.sky ∧ m.ray.hitSky = true ∧ m.ray.color = ⟨180, 285, 375⟩ := by
  obtain ⟨fuel, yf, tf, hyf, h⟩ := raycastLoop_sunward_sky
    { lastRay with pos := ⟨a, a, 0⟩, dir := normalize ⟨1, 1, 0⟩ } SKY_COLOR ⟨0, 0, 0⟩ 0 true
    (1 / Real.sqrt 2) 0 a half_le_inv_sqrt_two (by norm_num) ha
  refine ⟨fuel, fun fuel' hle => ?_⟩
  have h' := h fuel' hle
  simp only [sub_zero] at h'
  have hnorm : normalize ⟨yf, yf, 0⟩ = normalize ⟨1, 1, 0⟩ := by
    have := normalize_smul yf 1 1 0 hyf
    simpa using this
  have hk : max (1 : ℝ) (1.5 - distance (normalize ⟨yf, yf, 0⟩) (normalize ⟨1, 1, 0⟩)) = 1.5 := by
    rw [hnorm, distance_self, sub_zero]
    exact max_eq_right (by norm_num)
  have hT : raycastTraced fuel' { lastRay with pos := ⟨a, a, 0⟩, dir := normalize ⟨1, 1, 0⟩ }
      = some { ray := skyTint ⟨SKY_COLOR, ⟨yf, yf, 0⟩, ⟨1 / Real.sqrt 2, 1 / Real.sqrt 2, 0⟩,
                               ⟨0, 0, 0⟩, 0, true⟩,
               traveled := tf, surface := Surface.sky } := by
    unfold raycastTraced
    simp only [normalize_sun] at h' ⊢
    rw [h']
    rfl
  refine ⟨_, hT, rfl, ?_, ?_⟩
  · simp [skyTint]
  · simp only [skyTint, if_true, hk, SKY_COLOR, Vec3.scale]
    congr 1 <;> norm_num

/-- The shadow probe of the floor point `(0, 0, 0)` reaches the sky. -/
theorem raycast_probe_origin :
    ∃ fuel, ∀ fuel', fuel ≤ fuel' →
      ∃ r, raycast fuel' (sunRay ⟨0, 0, 0⟩ ⟨0, 1, 0⟩) = some r ∧ r.hitSky = true := by
  obtain ⟨fuel, yf, tf, _, h⟩ := raycastLoop_sunward_sky
    (sunRay ⟨0, 0, 0⟩ ⟨0, 1, 0⟩) SKY_COLOR ⟨0, 0, 0⟩ 0 true 1 0.02 0.04
    (by norm_num) (by norm_num) (by norm_num)
  refine ⟨fuel, fun fuel' hle => ?_⟩
  have h' := h fuel' hle
  have hp : (sunRay ⟨0, 0, 0⟩ ⟨0, 1, 0⟩).pos = ⟨0.04 - 0.02, 0.04, 0⟩ := by
    simp only [sunRay, vec_add_def, Vec3.mulv]
    congr 1 <;> norm_num
  have hd : (sunRay ⟨0, 0, 0⟩ ⟨0, 1, 0⟩).dir = ⟨1, 1, 0⟩ := rfl
  have hR : raycast fuel' (sunRay ⟨0, 0, 0⟩ ⟨0, 1, 0⟩)
      = some (skyTint ⟨SKY_COLOR, ⟨yf - 0.02, yf, 0⟩, ⟨1, 1, 0⟩, ⟨0, 0, 0⟩, 0, true⟩) := by
    unfold raycast raycastTraced
    simp only [hp, hd]
    rw [h']
    rfl
  exact ⟨_, hR, by simp [skyTint]⟩

theorem clamp_one : clamp 1 0.5 2 = 1 := by
  unfold clamp
  norm_num

end MarcherLemmas

/-! ## The checkerboard floor -/

section FloorClaims

/-- C4, refuted as stated: the ray that starts at `(-0.5, 0, 0.5)` resolves a
floor hit there and `raycast` colours it black, whereas the parity computed
with the mathematical floor and the two negative-axis flips is true (white). -/
theorem floor_parity_counterexample :
    raycastTraced 1 { color := ⟨0, 0, 0⟩, pos := ⟨-0.5, 0, 0.5⟩, dir := ⟨0, 0, 1⟩,
                      normal := ⟨0, 0, 0⟩, nextIntensity := 1, hitSky := true }
        = some { ray := { color := ⟨0, 0, 0⟩, pos := ⟨-0.5, 0, 0.5⟩, dir := ⟨0, 0, 1⟩,
                          normal := ⟨0, 1, 0⟩, nextIntensity := 0, hitSky := false },
                 traveled := 0, surface := Surface.floor }
      ∧ specParity Int.floor (-0.5 : ℝ) (0.5 : ℝ) = true := by
  constructor
  · rw [raycastTraced_floor_first _ 0 (le_refl _)]
    simp only [tileBrightness_neg_half_half]
    rfl
  · have e1 : ⌊(-0.5 : ℝ)⌋ = -1 := by rw [Int.floor_eq_iff]; norm_num
    have e2 : ⌊(0.5 : ℝ)⌋ = 0 := by rw [Int.floor_eq_iff]; norm_num
    have hx : (-0.5 : ℝ) < 0 := by norm_num
    have hz : ¬ ((0.5 : ℝ) < 0) := by norm_num
    simp only [specParity, e1, e2, hx, hz]
    decide

/-- C4, amended: for every floor hit of `raycast` at a position with
coordinates `x` and `z` within the `int` range, the returned colour is white iff
`P` is true and black otherwise, where `P` starts from
`(trunc x + trunc z) mod 2 == 0` with the truncation toward zero of the `int`
cast (not the floor), negated once if `x < 0` and once more if `z < 0`. -/
theorem floor_hit_colour (fuel : Nat) (lastRay : RayHitInfo) (m : March)
    (h : raycastTraced fuel lastRay = some m) (hs : m.surface = Surface.floor)
    (hx : |m.ray.pos.x| < 2147483648) (hz : |m.ray.pos.z| < 2147483648) :
    m.ray.color =
      if specParity (fun v : ℝ => if 0 ≤ v then ⌊v⌋ else ⌈v⌉) m.ray.pos.x m.ray.pos.z
      then ⟨255, 255, 255⟩ else ⟨0, 0, 0⟩ := by
  unfold raycastTraced at h
  simp only [Option.map_eq_some'] at h
  obtain ⟨m0, h0, rfl⟩ := h
  obtain ⟨p, -, hfl, -⟩ := raycastLoop_exit _ _ _ _ _ h0
  obtain ⟨e, -⟩ := hfl hs
  have hsky : m0.ray.hitSky = false := by rw [e]
  simp only [skyTint_of_hit _ hsky]
  have hc : m0.ray.color = if tileBrightness p.x p.z then ⟨255, 255, 255⟩
      else ⟨0, 0, 0⟩ := by rw [e]
  have hp : m0.ray.pos = p := by rw [e]
  rw [hc, hp, tileBrightness_eq_specParity]
  have et : (fun v : ℝ => if 0 ≤ v then ⌊v⌋ else ⌈v⌉) = toInt := by
    funext v; rfl
  rw [et]

/-- Witness of C4 (amended): the floor hit of the ray that starts at
`(0.5, 0, 0.5)`. -/
theorem floor_hit_colour_witness :
    (⟨{ color := if tileBrightness (0.5 : ℝ) (0.5 : ℝ) then ⟨255, 255, 255⟩
                 else ⟨0, 0, 0⟩,
        pos := ⟨0.5, 0, 0.5⟩, dir := ⟨0, 0, 1⟩, normal := ⟨0, 1, 0⟩,
        nextIntensity := 0, hitSky := false }, 0, Surface.floor⟩ : March).ray.color =
      if specParity (fun v : ℝ => if 0 ≤ v then ⌊v⌋ else ⌈v⌉) (0.5 : ℝ) (0.5 : ℝ)
      then ⟨255, 255, 255⟩ else ⟨0, 0, 0⟩ :=
  floor_hit_colour 1
    { color := ⟨0, 0, 0⟩, pos := ⟨0.5, 0, 0.5⟩, dir := ⟨0, 0, 1⟩, normal := ⟨0, 0, 0⟩,
      nextIntensity := 1, hitSky := true } _
    (raycastTraced_floor_first _ 0 (le_refl _)) rfl
    (by show |(0.5 : ℝ)| < 2147483648; rw [abs_of_nonneg] <;> norm_num)
    (by show |(0.5 : ℝ)| < 2147483648; rw [abs_of_nonneg] <;> norm_num)

/-- C5: for every ray direction (and every other field of the incoming
record), `raycast` on a ray whose origin is `(0.5, 0, 0.5)` returns a floor hit
coloured white, on a ray whose origin is `(1.5, 0, 0.5)` a floor hit coloured
black, and on a ray whose origin is `(-0.5, 0, 0.5)` a floor hit coloured
black. -/
theorem floor_parity_examples (lastRay : RayHitInfo) (fuel : Nat) :
    (raycastTraced (fuel + 1) { lastRay with pos := ⟨0.5, 0, 0.5⟩ }
        = some { ray := { color := ⟨255, 255, 255⟩, pos := ⟨0.5, 0, 0.5⟩, dir := lastRay.dir,
                          normal := ⟨0, 1, 0⟩, nextIntensity := 0, hitSky := false },
                 traveled := 0, surface := Surface.floor }
      ∧ raycast (fuel + 1) { lastRay with pos := ⟨0.5, 0, 0.5⟩ }
        = some { color := ⟨255, 255, 255⟩, pos := ⟨0.5, 0, 0.5⟩, dir := lastRay.dir,
                 normal := ⟨0, 1, 0⟩, nextIntensity := 0, hitSky := false })
    ∧ (raycastTraced (fuel + 1) { lastRay with pos := ⟨1.5, 0, 0.5⟩ }
        = some { ray := { color := ⟨0, 0, 0⟩, pos := ⟨1.5, 0, 0.5⟩, dir := lastRay.dir,
                          normal := ⟨0, 1, 0⟩, nextIntensity := 0, hitSky := false },
                 traveled := 0, surface := Surface.floor }
      ∧ raycast (fuel + 1) { lastRay with pos := ⟨1.5, 0, 0.5⟩ }
        = some { color := ⟨0, 0, 0⟩, pos := ⟨1.5, 0, 0.5⟩, dir := lastRay.dir,
                 normal := ⟨0, 1, 0⟩, nextIntensity := 0, hitSky := false })
    ∧ (raycastTraced (fuel + 1) { lastRay with pos := ⟨-0.5, 0, 0.5⟩ }
        = some { ray := { color := ⟨0, 0, 0⟩, pos := ⟨-0.5, 0, 0.5⟩, dir := lastRay.dir,
                          normal := ⟨0, 1, 0⟩, nextIntensity := 0, hitSky := false },
                 traveled := 0, surface := Surface.floor }
      ∧ raycast (fuel + 1) { lastRay with pos := ⟨-0.5, 0, 0.5⟩ }
        = some { color := ⟨0, 0, 0⟩, pos := ⟨-0.5, 0, 0.5⟩, dir := lastRay.dir,
                 normal := ⟨0, 1, 0⟩, nextIntensity := 0, hitSky := false }) := by
  have h1 := raycastTraced_floor_first { lastRay with pos := ⟨0.5, 0, 0.5⟩ } fuel (le_refl _)
  have h2 := raycastTraced_floor_first { lastRay with pos := ⟨1.5, 0, 0.5⟩ } fuel (le_refl _)
  have h3 := raycastTraced_floor_first { lastRay with pos := ⟨-0.5, 0, 0.5⟩ } fuel (le_refl _)
  simp only [tileBrightness_half_half, if_true] at h1
  simp only [tileBrightness_three_halves_half] at h2
  simp only [tileBrightness_neg_half_half] at h3
  refine ⟨⟨?_, ?_⟩, ⟨?_, ?_⟩, ⟨?_, ?_⟩⟩
  · exact h1
  · rw [raycast, h1]; rfl
  · exact h2
  · rw [raycast, h2]; rfl
  · exact h3
  · rw [raycast, h3]; rfl

end FloorClaims

/-! ## The sphere -/

section SphereClaims

/-- C6: `raycast` on the ray with origin `(0, 2, 0)`, direction `(0, 0, 1)` and
incoming intensity 1 returns a sphere hit (`hitSky = false`) after traveling
6.94 units (between 6.9 and 7.1), with colour `(250, 0, 0)`, normal
`(0, 0, -1)`, reflected direction `(0, 0, -1)` and `nextIntensity` 0.5; the
first pass through the body of the bounce loop of `getPixel` therefore adds
`(250, 0, 0) * (1 - 0.5) = (125, 0, 0)` to the pixel colour. -/
theorem center_ray_hits_sphere (lastRay : RayHitInfo) (fuel : Nat) :
    raycastTraced (fuel + 5)
        { lastRay with pos := ⟨0, 2, 0⟩, dir := ⟨0, 0, 1⟩, nextIntensity := 1 }
      = some { ray := { color := ⟨250, 0, 0⟩, pos := ⟨0, 2, 7.0094⟩, dir := ⟨0, 0, -1⟩,
                        normal := ⟨0, 0, -1⟩, nextIntensity := 0.5, hitSky := false },
               traveled := 6.94, surface := Surface.sphere }
    ∧ ((6.9 : ℝ) < 6.94 ∧ (6.94 : ℝ) < 7.1)
    ∧ raycast (fuel + 5)
        { lastRay with pos := ⟨0, 2, 0⟩, dir := ⟨0, 0, 1⟩, nextIntensity := 1 }
      = some { color := ⟨250, 0, 0⟩, pos := ⟨0, 2, 7.0094⟩, dir := ⟨0, 0, -1⟩,
               normal := ⟨0, 0, -1⟩, nextIntensity := 0.5, hitSky := false }
    ∧ bounceBody (fuel + 5)
        { ray := { lastRay with pos := ⟨0, 2, 0⟩, dir := ⟨0, 0, 1⟩, nextIntensity := 1 },
          color := ⟨0, 0, 0⟩, nextIntensity := 1 }
      = some { ray := { color := ⟨250, 0, 0⟩, pos := ⟨0, 2, 6.9094⟩, dir := ⟨0, 0, -1⟩,
                        normal := ⟨0, 0, -1⟩, nextIntensity := 0.5, hitSky := false },
               color := ⟨125, 0, 0⟩, nextIntensity := 0.5 } := by
  have h := raycastTraced_center
    { lastRay with pos := ⟨0, 2, 0⟩, dir := ⟨0, 0, 1⟩, nextIntensity := 1 } fuel
  simp only [halfIntensity_one] at h
  have hr : raycast (fuel + 5)
        { lastRay with pos := ⟨0, 2, 0⟩, dir := ⟨0, 0, 1⟩, nextIntensity := 1 }
      = some { color := ⟨250, 0, 0⟩, pos := ⟨0, 2, 7.0094⟩, dir := ⟨0, 0, -1⟩,
               normal := ⟨0, 0, -1⟩, nextIntensity := 0.5, hitSky := false } := by
    rw [raycast, h]; rfl
  refine ⟨h, ⟨by norm_num, by norm_num⟩, hr, ?_⟩
  unfold bounceBody
  simp only [hr, Option.map_some']
  have hpos : (0 : ℝ) < 0.5 := by norm_num
  simp only [gt_iff_lt, hpos, if_true, vec_add_def, Vec3.scale]
  norm_num

/-- C9: for every ray with unit direction `d` that `raycast` resolves as a
sphere hit at a position different from the sphere centre, the returned
direction `r` and the returned normal `n` satisfy `dot(r, n) = -dot(d, n)` and
the length of `r` is 1. -/
theorem reflection_law (fuel : Nat) (lastRay : RayHitInfo) (m : March)
    (h : raycastTraced fuel lastRay = some m) (hs : m.surface = Surface.sphere)
    (hd : magnitude lastRay.dir = 1) (hp : m.ray.pos ≠ sphere.pos) :
    dot m.ray.dir m.ray.normal = - dot lastRay.dir m.ray.normal
      ∧ magnitude m.ray.dir = 1 := by
  obtain ⟨e, -⟩ := raycastTraced_sphere fuel lastRay m h hs
  have hn : m.ray.normal = normalize (m.ray.pos - sphere.pos) := by rw [e]
  have hr : m.ray.dir = lastRay.dir - ((normalize (m.ray.pos - sphere.pos)).scale 2).scale
      (dot lastRay.dir (normalize (m.ray.pos - sphere.pos))) := by rw [e]
  have h1 := dot_normalize_self _ (magnitude_pos_of_ne _ _ hp)
  have hdd : dot lastRay.dir lastRay.dir = 1 := by
    rw [← magnitude_mul_self, hd]; ring
  rw [hn, hr]
  generalize normalize (m.ray.pos - sphere.pos) = n at h1
  generalize lastRay.dir = d at hdd
  simp only [dot, vec_sub_def, Vec3.scale] at h1 hdd ⊢
  constructor
  · linear_combination (-2 * (d.x * n.x + d.y * n.y + d.z * n.z)) * h1
  · apply magnitude_eq_one_of_dot
    simp only [dot]
    linear_combination hdd + (4 * (d.x * n.x + d.y * n.y + d.z * n.z) ^ 2) * h1

/-- Witness of C9: the sphere hit of the ray from `(0, 2, 0)` along
`(0, 0, 1)`. -/
theorem reflection_law_witness :
    dot (⟨0, 0, -1⟩ : Vec3 ℝ) ⟨0, 0, -1⟩ = - dot (⟨0, 0, 1⟩ : Vec3 ℝ) ⟨0, 0, -1⟩
      ∧ magnitude (⟨0, 0, -1⟩ : Vec3 ℝ) = 1 :=
  reflection_law 5
    { color := ⟨0, 0, 0⟩, pos := ⟨0, 2, 0⟩, dir := ⟨0, 0, 1⟩, normal := ⟨0, 0, 0⟩,
      nextIntensity := 1, hitSky := true }
    { ray := { color := ⟨250, 0, 0⟩, pos := ⟨0, 2, 7.0094⟩, dir := ⟨0, 0, -1⟩,
               normal := ⟨0, 0, -1⟩, nextIntensity := halfIntensity 1, hitSky := false },
      traveled := 6.94, surface := Surface.sphere }
    (raycastTraced_center
      { color := ⟨0, 0, 0⟩, pos := ⟨0, 2, 0⟩, dir := ⟨0, 0, 1⟩, normal := ⟨0, 0, 0⟩,
        nextIntensity := 1, hitSky := true } 0)
    rfl
    (magnitude_eq_one_of_dot _ (by simp [dot]))
    (by intro hc; have := congrArg Vec3.z hc; simp only [sphere] at this; norm_num at this)

/-- C10: for every ray that `raycast` resolves as a sphere hit at a position
`pos` different from the sphere centre `c = (0, 2, 8)`, the returned normal has
length 1, equals `(pos - c) / |pos - c|` and satisfies
`dot(normal, pos - c) > 0`. -/
theorem sphere_normal_outward (fuel : Nat) (lastRay : RayHitInfo) (m : March)
    (h : raycastTraced fuel lastRay = some m) (hs : m.surface = Surface.sphere)
    (hp : m.ray.pos ≠ ⟨0, 2, 8⟩) :
    magnitude m.ray.normal = 1
      ∧ m.ray.normal = ⟨(m.ray.pos.x - 0) / distance m.ray.pos ⟨0, 2, 8⟩,
                        (m.ray.pos.y - 2) / distance m.ray.pos ⟨0, 2, 8⟩,
                        (m.ray.pos.z - 8) / distance m.ray.pos ⟨0, 2, 8⟩⟩
      ∧ 0 < dot m.ray.normal (m.ray.pos - ⟨0, 2, 8⟩) := by
  obtain ⟨e, -⟩ := raycastTraced_sphere fuel lastRay m h hs
  have hn : m.ray.normal = normalize (m.ray.pos - sphere.pos) := by rw [e]
  have hpos : 0 < magnitude (m.ray.pos - sphere.pos) := magnitude_pos_of_ne _ _ hp
  refine ⟨?_, ?_, ?_⟩
  · rw [hn]
    exact magnitude_eq_one_of_dot _ (dot_normalize_self _ hpos)
  · rw [hn]; rfl
  · rw [hn]
    show 0 < dot (normalize (m.ray.pos - sphere.pos)) (m.ray.pos - sphere.pos)
    rw [dot_normalize_left _ hpos]
    exact hpos

/-- Witness of C10: the sphere hit of the ray from `(0, 2, 0)` along
`(0, 0, 1)`, reported at `(0, 2, 7.0094)` with normal `(0, 0, -1)`. -/
theorem sphere_normal_outward_witness :
    magnitude (⟨0, 0, -1⟩ : Vec3 ℝ) = 1
      ∧ (⟨0, 0, -1⟩ : Vec3 ℝ) = ⟨((0 : ℝ) - 0) / distance ⟨0, 2, 7.0094⟩ ⟨0, 2, 8⟩,
                        ((2 : ℝ) - 2) / distance ⟨0, 2, 7.0094⟩ ⟨0, 2, 8⟩,
                        ((7.0094 : ℝ) - 8) / distance ⟨0, 2, 7.0094⟩ ⟨0, 2, 8⟩⟩
      ∧ 0 < dot (⟨0, 0, -1⟩ : Vec3 ℝ) ((⟨0, 2, 7.0094⟩ : Vec3 ℝ) - ⟨0, 2, 8⟩) :=
  sphere_normal_outward 5
    { color := ⟨0, 0, 0⟩, pos := ⟨0, 2, 0⟩, dir := ⟨0, 0, 1⟩, normal := ⟨0, 0, 0⟩,
      nextIntensity := 1, hitSky := true }
    { ray := { color := ⟨250, 0, 0⟩, pos := ⟨0, 2, 7.0094⟩, dir := ⟨0, 0, -1⟩,
               normal := ⟨0, 0, -1⟩, nextIntensity := halfIntensity 1, hitSky := false },
      traveled := 6.94, surface := Surface.sphere }
    (raycastTraced_center
      { color := ⟨0, 0, 0⟩, pos := ⟨0, 2, 0⟩, dir := ⟨0, 0, 1⟩, normal := ⟨0, 0, 0⟩,
        nextIntensity := 1, hitSky := true } 0)
    rfl
    (by intro hc; have := congrArg Vec3.z hc; norm_num at this)

end SphereClaims

/-! ## The sky and the sun -/

section SkyClaims

/-- C7, refuted as stated: the ray that starts at the origin `(0, 0, 0)` with
direction `normalize((1, 1, 0))` does not report sky; the origin lies on the
floor plane, so `raycast` returns a white floor hit with `hitSky = false`. -/
theorem sun_ray_origin_counterexample :
    raycast 1 { color := ⟨0, 0, 0⟩, pos := ⟨0, 0, 0⟩, dir := normalize ⟨1, 1, 0⟩,
                normal := ⟨0, 0, 0⟩, nextIntensity := 1, hitSky := true }
      = some { color := ⟨255, 255, 255⟩, pos := ⟨0, 0, 0⟩, dir := normalize ⟨1, 1, 0⟩,
               normal := ⟨0, 1, 0⟩, nextIntensity := 0, hitSky := false } := by
  rw [raycast, raycastTraced_floor_first _ 0 (le_refl _)]
  simp only [tileBrightness_zero_zero, if_true]
  rfl

/-- C7, amended: `raycast` on the ray that starts at the origin with direction
`normalize((1, 1, 0))` resolves the floor in its first iteration (white,
`hitSky = false`); started from any point `(a, a, 0)` with `a > 0` on the sun
line, the same direction reports sky (`hitSky = true`) with the colour
`SKY * 1.5 = (180, 285, 375)`, brighter than the base sky. -/
theorem sun_ray_sky (lastRay : RayHitInfo) (a : ℝ) (ha : 0 < a) :
    (∀ fuel : Nat,
      raycast (fuel + 1) { lastRay with pos := ⟨0, 0, 0⟩, dir := normalize ⟨1, 1, 0⟩ }
        = some { color := ⟨255, 255, 255⟩, pos := ⟨0, 0, 0⟩, dir := normalize ⟨1, 1, 0⟩,
                 normal := ⟨0, 1, 0⟩, nextIntensity := 0, hitSky := false })
    ∧ ∃ fuel, ∀ fuel', fuel ≤ fuel' →
        ∃ m, raycastTraced fuel' { lastRay with pos := ⟨a, a, 0⟩, dir := normalize ⟨1, 1, 0⟩ }
            = some m
          ∧ m.surface = Surface.sky ∧ m.ray.hitSky = true
          ∧ m.ray.color = ⟨180, 285, 375⟩
          ∧ m.ray.color = SKY_COLOR.scale 1.5
          ∧ SKY_COLOR.x < m.ray.color.x ∧ SKY_COLOR.y < m.ray.color.y
          ∧ SKY_COLOR.z < m.ray.color.z := by
  constructor
  · intro fuel
    rw [raycast, raycastTraced_floor_first _ fuel (le_refl _)]
    simp only [tileBrightness_zero_zero, if_true]
    rfl
  · obtain ⟨fuel, h⟩ := raycastTraced_sun_line lastRay a ha
    refine ⟨fuel, fun fuel' hle => ?_⟩
    obtain ⟨m, hm, hs, hsky, hcol⟩ := h fuel' hle
    refine ⟨m, hm, hs, hsky, hcol, ?_, ?_, ?_, ?_⟩
    · rw [hcol]
      simp only [SKY_COLOR, Vec3.scale]
      congr 1 <;> norm_num
    · rw [hcol]; simp only [SKY_COLOR]; norm_num
    · rw [hcol]; simp only [SKY_COLOR]; norm_num
    · rw [hcol]; simp only [SKY_COLOR]; norm_num

/-- Witness of C7 (amended): the ray from `(1, 1, 0)` toward the sun. -/
theorem sun_ray_sky_witness :
    (∀ fuel : Nat,
      raycast (fuel + 1) { color := ⟨0, 0, 0⟩, pos := ⟨0, 0, 0⟩, dir := normalize ⟨1, 1, 0⟩,
                           normal := ⟨0, 0, 0⟩, nextIntensity := 1, hitSky := true }
        = some { color := ⟨255, 255, 255⟩, pos := ⟨0, 0, 0⟩, dir := normalize ⟨1, 1, 0⟩,
                 normal := ⟨0, 1, 0⟩, nextIntensity := 0, hitSky := false })
    ∧ ∃ fuel, ∀ fuel', fuel ≤ fuel' →
        ∃ m, raycastTraced fuel' { color := ⟨0, 0, 0⟩, pos := ⟨1, 1, 0⟩, dir := normalize ⟨1, 1, 0⟩,
                                   normal := ⟨0, 0, 0⟩, nextIntensity := 1, hitSky := true }
            = some m
          ∧ m.surface = Surface.sky ∧ m.ray.hitSky = true
          ∧ m.ray.color = ⟨180, 285, 375⟩
          ∧ m.ray.color = SKY_COLOR.scale 1.5
          ∧ SKY_COLOR.x < m.ray.color.x ∧ SKY_COLOR.y < m.ray.color.y
          ∧ SKY_COLOR.z < m.ray.color.z :=
  sun_ray_sky { color := ⟨0, 0, 0⟩, pos := ⟨0, 0, 0⟩, dir := ⟨0, 0, 1⟩,
                normal := ⟨0, 0, 0⟩, nextIntensity := 1, hitSky := true } 1 one_pos

/-- C8, refuted as stated: for the floor point `(0, 0, 0)` with normal
`(0, 1, 0)` the shadow probe reports sky and `getSunLight` returns 1, whereas
the factor computed with the normalized sun direction, and in particular
`(1/sqrt 2)^1.25`, is smaller than 1. -/
theorem sunlight_counterexample :
    ∃ fuel r, raycast fuel (sunRay ⟨0, 0, 0⟩ ⟨0, 1, 0⟩) = some r ∧ r.hitSky = true
      ∧ getSunLight fuel ⟨0, 0, 0⟩ ⟨0, 1, 0⟩ = some 1
      ∧ specSunLight (normalize ⟨1, 1, 0⟩) ⟨0, 1, 0⟩ < 1
      ∧ (1 / Real.sqrt 2) ^ (1.25 : ℝ) < 1 := by
  obtain ⟨fuel, h⟩ := raycast_probe_origin
  obtain ⟨r, hr, hsky⟩ := h fuel (le_refl _)
  have hpos : (0 : ℝ) < 1 / Real.sqrt 2 := by positivity
  have hlt : (1 / Real.sqrt 2) ^ (1.25 : ℝ) < 1 :=
    Real.rpow_lt_one hpos.le inv_sqrt_two_lt_one (by norm_num)
  refine ⟨fuel, r, hr, hsky, ?_, ?_, hlt⟩
  · unfold getSunLight
    simp only [hr, Option.map_some', hsky, if_true]
    have hd : dot (⟨0, 1, 0⟩ : Vec3 ℝ) ⟨1, 1, 0⟩ = 1 := by simp [dot]
    rw [hd, Real.one_rpow, clamp_one]
  · have hd : dot (⟨0, 1, 0⟩ : Vec3 ℝ) (normalize ⟨1, 1, 0⟩) = 1 / Real.sqrt 2 := by
      rw [normalize_sun]; simp [dot]
    unfold specSunLight
    rw [hd, max_eq_left hpos.le]
    unfold clamp
    split_ifs
    · norm_num
    · linarith
    · exact hlt

/-- C8, amended: for every hit position and every normal `n` with
`dot(n, (1, 1, 0)) ≥ 0`, `getSunLight` returns (given enough fuel for the
probe) `clamp(max(dot(n, s), 0)^1.25, 0.5, 2.0)` with the sun vector
`s = (1, 1, 0)` as `getSunLight` uses it, not normalized, if the shadow probe
reports sky, and 0.5 if it does not; for an unshadowed floor point
(`n = (0, 1, 0)`) the factor is 1. -/
theorem sunlight_factor (pos n : Vec3 ℝ) (hn : 0 ≤ dot n ⟨1, 1, 0⟩) :
    (∃ fuel, ∀ fuel', fuel ≤ fuel' →
      ∃ r, raycast fuel' (sunRay pos n) = some r
        ∧ getSunLight fuel' pos n
            = some (if r.hitSky then specSunLight ⟨1, 1, 0⟩ n else 0.5))
    ∧ (n = ⟨0, 1, 0⟩ → ∀ fuel r, raycast fuel (sunRay pos n) = some r → r.hitSky = true →
        getSunLight fuel pos n = some 1) := by
  constructor
  · obtain ⟨fuel, h⟩ := raycast_terminates (sunRay pos n)
    refine ⟨fuel, fun fuel' hle => ?_⟩
    obtain ⟨r, hr⟩ := h fuel' hle
    refine ⟨r, hr, ?_⟩
    unfold getSunLight specSunLight
    simp only [hr, Option.map_some', max_eq_left hn]
  · intro hn' fuel r hr hsky
    unfold getSunLight
    simp only [hr, Option.map_some', hsky, if_true]
    have hd : dot n ⟨1, 1, 0⟩ = 1 := by rw [hn']; simp [dot]
    rw [hd, Real.one_rpow, clamp_one]

/-- Witness of C8 (amended): the floor point `(0, 0, 0)` with normal
`(0, 1, 0)`. -/
theorem sunlight_factor_witness :
    (∃ fuel, ∀ fuel', fuel ≤ fuel' →
      ∃ r, raycast fuel' (sunRay ⟨0, 0, 0⟩ ⟨0, 1, 0⟩) = some r
        ∧ getSunLight fuel' ⟨0, 0, 0⟩ ⟨0, 1, 0⟩
            = some (if r.hitSky then specSunLight ⟨1, 1, 0⟩ ⟨0, 1, 0⟩ else 0.5))
    ∧ ((⟨0, 1, 0⟩ : Vec3 ℝ) = ⟨0, 1, 0⟩ → ∀ fuel r,
        raycast fuel (sunRay ⟨0, 0, 0⟩ ⟨0, 1, 0⟩) = some r → r.hitSky = true →
        getSunLight fuel ⟨0, 0, 0⟩ ⟨0, 1, 0⟩ = some 1) :=
  sunlight_factor ⟨0, 0, 0⟩ ⟨0, 1, 0⟩ (by simp [dot])

end SkyClaims

/-! ## Shadow probes, rays from below and rays straight down -/

section ProbeLemmas

theorem clamp_zero : clamp 0 0.5 2 = 0.5 := by
  unfold clamp
  norm_num

/-- A ray fired straight down from height 2, at horizontal distance at least 3
from the sphere axis: one step of length 2 carries it to `y = -0.02`, where
the floor test of the second iteration fires. -/
theorem raycastTraced_straight_down (lastRay : RayHitInfo) (fuel : Nat) (x z : ℝ)
    (h : 9 ≤ x ^ 2 + (z - 8) ^ 2) :
    raycastTraced (fuel + 2) { lastRay with pos := ⟨x, 2, z⟩, dir := ⟨0, -1, 0⟩ }
      = some { ray := { color := if tileBrightness x z then ⟨255, 255, 255⟩ else ⟨0, 0, 0⟩,
                        pos := ⟨x, -0.02, z⟩, dir := ⟨0, -1, 0⟩, normal := ⟨0, 1, 0⟩,
                        nextIntensity := 0, hitSky := false },
               traveled := 2, surface := Surface.floor } := by
  have hd : 3 ≤ distance ⟨x, 2, z⟩ sphere.pos := by
    unfold distance magnitude
    simp only [vec_sub_def, sphere]
    apply Real.le_sqrt_of_sq_le
    nlinarith
  have h0 : (0 : ℝ) < 65536 := by norm_num
  have h2 : (2 : ℝ) < 65536 := by norm_num
  have hA : ¬ (distance ⟨x, 2, z⟩ sphere.pos - 1 ≤ (0 : ℝ) / 512) := by
    rw [zero_div]; exact not_le.2 (by linarith)
  have hB : ¬ ((2 : ℝ) ≤ (0 : ℝ) / 512) := by norm_num
  have hmin : min (2 : ℝ) (distance ⟨x, 2, z⟩ sphere.pos - 1) = 2 := min_eq_left (by linarith)
  have hp : (⟨x, 2, z⟩ : Vec3 ℝ) + (Vec3.scale (Vec3.scale ⟨0, -1, 0⟩ 2) 1.01) = ⟨x, -0.02, z⟩ := by
    simp only [vec_add_def, Vec3.scale]
    congr 1 <;> norm_num
  have hd' : 2 ≤ distance ⟨x, -0.02, z⟩ sphere.pos :=
    two_le_distance_of_below ⟨x, -0.02, z⟩ (by norm_num)
  have hA' : ¬ (distance ⟨x, -0.02, z⟩ sphere.pos - 1 ≤ (2 : ℝ) / 512) := by
    apply not_le.2
    have : (2 : ℝ) / 512 < 1 := by norm_num
    linarith
  have hB' : (-0.02 : ℝ) ≤ (2 : ℝ) / 512 := by norm_num
  unfold raycastTraced
  simp only []
  rw [raycastLoop]
  simp only [h0, hA, hB, if_true, if_false, hmin, hp, zero_add]
  rw [raycastLoop]
  simp only [h2, hA', hB', if_true, if_false, Option.map_some', skyTint_of_hit]

end ProbeLemmas

section ProbeClaims

/-- C11: `getSunLight` called with hit position `(0, 2, 7)` and normal
`(0, 0, -1)` returns the light factor 0.5, for every amount of fuel beyond the
number of iterations the shadow probe needs: the dot product of the normal
with the sun vector is 0, `0^1.25 = 0` is clamped up to 0.5, and the shadowed
branch gives 0.5 as well. -/
theorem sunlight_sphere_front :
    dot (⟨0, 0, -1⟩ : Vec3 ℝ) ⟨1, 1, 0⟩ = 0
      ∧ clamp ((0 : ℝ) ^ (1.25 : ℝ)) 0.5 2 = 0.5
      ∧ ∃ fuel, ∀ k : Nat, getSunLight (fuel + k) ⟨0, 2, 7⟩ ⟨0, 0, -1⟩ = some 0.5 := by
  have hd : dot (⟨0, 0, -1⟩ : Vec3 ℝ) ⟨1, 1, 0⟩ = 0 := by simp [dot]
  have hc : clamp ((0 : ℝ) ^ (1.25 : ℝ)) 0.5 2 = 0.5 := by
    rw [Real.zero_rpow (by norm_num), clamp_zero]
  refine ⟨hd, hc, ?_⟩
  obtain ⟨fuel, h⟩ := raycast_terminates (sunRay ⟨0, 2, 7⟩ ⟨0, 0, -1⟩)
  refine ⟨fuel, fun k => ?_⟩
  obtain ⟨r, hr⟩ := h (fuel + k) (Nat.le_add_right _ _)
  unfold getSunLight
  simp only [hr, Option.map_some', hd, hc, ite_self]

/-- C12, refuted as stated: the ray fired straight down from the reference
camera position `(0, 2, 0)` returns a floor hit whose reported position is
`(0, -0.02, 0)`; its `y` coordinate is not 0. -/
theorem straight_down_counterexample :
    raycast 2 { color := ⟨0, 0, 0⟩, pos := ⟨0, 2, 0⟩, dir := ⟨0, -1, 0⟩,
                normal := ⟨0, 0, 0⟩, nextIntensity := 1, hitSky := true }
      = some { color := ⟨255, 255, 255⟩, pos := ⟨0, -0.02, 0⟩, dir := ⟨0, -1, 0⟩,
               normal := ⟨0, 1, 0⟩, nextIntensity := 0, hitSky := false }
      ∧ (⟨0, -0.02, 0⟩ : Vec3 ℝ).y ≠ 0 := by
  constructor
  · have h := raycastTraced_straight_down
      { color := ⟨0, 0, 0⟩, pos := ⟨0, 2, 0⟩, dir := ⟨0, -1, 0⟩, normal := ⟨0, 0, 0⟩,
        nextIntensity := 1, hitSky := true } 0 0 0 (by norm_num)
    simp only [tileBrightness_zero_zero, if_true] at h
    rw [raycast]
    exact congrArg (Option.map March.ray) h
  · norm_num

/-- C12, amended: for every origin `(x, 2, z)` with `x^2 + (z - 8)^2 ≥ 9`,
`raycast` with direction `(0, -1, 0)` returns a floor hit (`hitSky = false`,
normal `(0, 1, 0)`, `nextIntensity` 0) whose reported position is
`(x, -0.02, z)`: `x` and `z` are those of the origin and the `y` coordinate is
`-0.02`, where the overshooting step of length `2 * 1.01` left the ray; its
colour is the checker colour of tile `(x, z)`. -/
theorem straight_down_floor (lastRay : RayHitInfo) (fuel : Nat) (x z : ℝ)
    (h : 9 ≤ x ^ 2 + (z - 8) ^ 2) :
    raycast (fuel + 2) { lastRay with pos := ⟨x, 2, z⟩, dir := ⟨0, -1, 0⟩ }
      = some { color := if tileBrightness x z then ⟨255, 255, 255⟩ else ⟨0, 0, 0⟩,
               pos := ⟨x, -0.02, z⟩, dir := ⟨0, -1, 0⟩, normal := ⟨0, 1, 0⟩,
               nextIntensity := 0, hitSky := false }
      ∧ (raycastTraced (fuel + 2) { lastRay with pos := ⟨x, 2, z⟩, dir := ⟨0, -1, 0⟩ }).map
          March.surface = some Surface.floor := by
  rw [raycast, raycastTraced_straight_down _ fuel x z h]
  exact ⟨rfl, rfl⟩

/-- Witness of C12 (amended): the reference camera position `(0, 2, 0)`. -/
theorem straight_down_floor_witness :
    raycast (0 + 2) { color := ⟨0, 0, 0⟩, pos := ⟨0, 2, 0⟩, dir := ⟨0, -1, 0⟩,
                      normal := ⟨0, 0, 0⟩, nextIntensity := 1, hitSky := true }
      = some { color := if tileBrightness (0 : ℝ) (0 : ℝ) then ⟨255, 255, 255⟩ else ⟨0, 0, 0⟩,
               pos := ⟨0, -0.02, 0⟩, dir := ⟨0, -1, 0⟩, normal := ⟨0, 1, 0⟩,
               nextIntensity := 0, hitSky := false }
      ∧ (raycastTraced (0 + 2) { color := ⟨0, 0, 0⟩, pos := ⟨0, 2, 0⟩, dir := ⟨0, -1, 0⟩,
                                 normal := ⟨0, 0, 0⟩, nextIntensity := 1, hitSky := true }).map
          March.surface = some Surface.floor :=
  straight_down_floor { color := ⟨0, 0, 0⟩, pos := ⟨0, 0, 0⟩, dir := ⟨0, 0, 0⟩,
                        normal := ⟨0, 0, 0⟩, nextIntensity := 1, hitSky := true } 0 0 0
    (by norm_num)

/-- C15: for every ray whose origin has `y < 0` (any `x`, `z`, any direction,
any incoming intensity), `raycast` resolves the floor on the first loop
iteration: it returns `hitSky = false`, normal `(0, 1, 0)`, `nextIntensity` 0,
a position equal to the origin and a direction equal to the incoming
direction, after traveling 0; the sphere test cannot fire first because every
point with `y ≤ 0` is at distance at least 2 from the sphere centre
`(0, 2, 8)`. -/
theorem below_floor_first (lastRay : RayHitInfo) (fuel : Nat) (hy : lastRay.pos.y < 0) :
    raycastTraced (fuel + 1) lastRay
        = some { ray := { color := if tileBrightness lastRay.pos.x lastRay.pos.z
                                   then ⟨255, 255, 255⟩ else ⟨0, 0, 0⟩,
                          pos := lastRay.pos, dir := lastRay.dir, normal := ⟨0, 1, 0⟩,
                          nextIntensity := 0, hitSky := false },
                 traveled := 0, surface := Surface.floor }
      ∧ raycast (fuel + 1) lastRay
        = some { color := if tileBrightness lastRay.pos.x lastRay.pos.z
                          then ⟨255, 255, 255⟩ else ⟨0, 0, 0⟩,
                 pos := lastRay.pos, dir := lastRay.dir, normal := ⟨0, 1, 0⟩,
                 nextIntensity := 0, hitSky := false }
      ∧ ∀ p : Vec3 ℝ, p.y ≤ 0 → 2 ≤ distance p ⟨0, 2, 8⟩ := by
  have h := raycastTraced_floor_first lastRay fuel hy.le
  refine ⟨h, ?_, fun p hp => two_le_distance_of_below p hp⟩
  rw [raycast, h]
  rfl

/-- Witness of C15: a ray that starts at `(3, -1, 4)`. -/
theorem below_floor_first_witness :
    raycastTraced (0 + 1) { color := ⟨0, 0, 0⟩, pos := ⟨3, -1, 4⟩, dir := ⟨0, 0, 1⟩,
                            normal := ⟨0, 0, 0⟩, nextIntensity := 1, hitSky := true }
        = some { ray := { color := if tileBrightness (3 : ℝ) (4 : ℝ)
                                   then ⟨255, 255, 255⟩ else ⟨0, 0, 0⟩,
                          pos := ⟨3, -1, 4⟩, dir := ⟨0, 0, 1⟩, normal := ⟨0, 1, 0⟩,
                          nextIntensity := 0, hitSky := false },
                 traveled := 0, surface := Surface.floor }
      ∧ raycast (0 + 1) { color := ⟨0, 0, 0⟩, pos := ⟨3, -1, 4⟩, dir := ⟨0, 0, 1⟩,
                          normal := ⟨0, 0, 0⟩, nextIntensity := 1, hitSky := true }
        = some { color := if tileBrightness (3 : ℝ) (4 : ℝ)
                          then ⟨255, 255, 255⟩ else ⟨0, 0, 0⟩,
                 pos := ⟨3, -1, 4⟩, dir := ⟨0, 0, 1⟩, normal := ⟨0, 1, 0⟩,
                 nextIntensity := 0, hitSky := false }
      ∧ ∀ p : Vec3 ℝ, p.y ≤ 0 → 2 ≤ distance p ⟨0, 2, 8⟩ :=
  below_floor_first { color := ⟨0, 0, 0⟩, pos := ⟨3, -1, 4⟩, dir := ⟨0, 0, 1⟩,
                      normal := ⟨0, 0, 0⟩, nextIntensity := 1, hitSky := true } 0
    (by norm_num)

end ProbeClaims

/-! ## Signs of the primary ray, termination of the march -/

section DirectionLemmas

theorem normalize_signs (v : Vec3 ℝ) (hz : 0 < v.z) :
    0 < (normalize v).z ∧ (v.x < 0 → (normalize v).x < 0) ∧ (0 < v.y → 0 < (normalize v).y)
      ∧ (v.y = 0 → (normalize v).y = 0) := by
  have hm : 0 < magnitude v := magnitude_pos_of_z v.x v.y v.z hz.ne'
  refine ⟨div_pos hz hm, fun h => div_neg_of_neg_of_pos h hm, fun h => div_pos h hm, fun h => ?_⟩
  show v.y / magnitude v = 0
  rw [h, zero_div]

/-- Signs of the primary-ray direction for a camera that is not rotated, in
terms of the raw screen coordinates `a` and `b` and the aspect factor `k`. -/
theorem primaryRay_signs_zero_rot (cols rows : Nat) (x y : Int) (p : Vec3 ℝ) :
    0 < (primaryRay cols rows x y p ⟨0, 0⟩).dir.z
      ∧ ((((x : ℝ) / ((cols * 2 : Nat) : ℝ)) * 1 - 0.5) * (((cols : ℝ) / 2) / (rows : ℝ)) < 0 →
          (primaryRay cols rows x y p ⟨0, 0⟩).dir.x < 0)
      ∧ (((y : ℝ) / ((rows * 2 : Nat) : ℝ)) * 1 - 0.5 < 0 →
          0 < (primaryRay cols rows x y p ⟨0, 0⟩).dir.y)
      ∧ (((y : ℝ) / ((rows * 2 : Nat) : ℝ)) * 1 - 0.5 = 0 →
          (primaryRay cols rows x y p ⟨0, 0⟩).dir.y = 0) := by
  have e : (primaryRay cols rows x y p ⟨0, 0⟩).dir
      = normalize (normalize
          ⟨(normalize ⟨((x : ℝ) / ((cols * 2 : Nat) : ℝ)) * 1 - 0.5,
              ((y : ℝ) / ((rows * 2 : Nat) : ℝ)) * 1 - 0.5, 1⟩).x
              * (((cols : ℝ) / 2) / (rows : ℝ)),
           -(normalize ⟨((x : ℝ) / ((cols * 2 : Nat) : ℝ)) * 1 - 0.5,
              ((y : ℝ) / ((rows * 2 : Nat) : ℝ)) * 1 - 0.5, 1⟩).y,
           (normalize ⟨((x : ℝ) / ((cols * 2 : Nat) : ℝ)) * 1 - 0.5,
              ((y : ℝ) / ((rows * 2 : Nat) : ℝ)) * 1 - 0.5, 1⟩).z⟩) := by
    simp only [primaryRay, Real.cos_zero, Real.sin_zero, mul_one, mul_zero, sub_zero,
      zero_add, add_zero]
  rw [e]
  generalize ((x : ℝ) / ((cols * 2 : Nat) : ℝ)) * 1 - 0.5 = a
  generalize ((y : ℝ) / ((rows * 2 : Nat) : ℝ)) * 1 - 0.5 = b
  generalize ((cols : ℝ) / 2) / (rows : ℝ) = k
  have hmpos : 0 < magnitude ⟨a, b, 1⟩ := magnitude_pos_of_z a b 1 one_ne_zero
  have hwz : 0 < (normalize ⟨a, b, 1⟩).z := div_pos one_pos hmpos
  obtain ⟨h1z, h1x, h1y, h1y0⟩ := normalize_signs
    ⟨(normalize ⟨a, b, 1⟩).x * k, -(normalize ⟨a, b, 1⟩).y, (normalize ⟨a, b, 1⟩).z⟩ hwz
  obtain ⟨h2z, h2x, h2y, h2y0⟩ := normalize_signs _ h1z
  refine ⟨h2z, fun h => h2x (h1x ?_), fun h => h2y (h1y ?_), fun h => h2y0 (h1y0 ?_)⟩
  · show a / magnitude ⟨a, b, 1⟩ * k < 0
    have : a / magnitude ⟨a, b, 1⟩ * k = a * k / magnitude ⟨a, b, 1⟩ := by ring
    rw [this]
    exact div_neg_of_neg_of_pos h hmpos
  · show 0 < -(b / magnitude ⟨a, b, 1⟩)
    have : b / magnitude ⟨a, b, 1⟩ < 0 := div_neg_of_neg_of_pos h hmpos
    linarith
  · show -(b / magnitude ⟨a, b, 1⟩) = 0
    rw [h, zero_div, neg_zero]

end DirectionLemmas

section DirectionClaims

/-- C13, refuted as stated: on a 1 x 1 terminal with the reference camera, the
primary ray of pixel `(0, 1)` is not tilted down; its `y` component is 0,
because `1 / (2 * rows) - 0.5 = 0`. -/
theorem pixel_0_1_counterexample :
    (primaryRay 1 1 0 1 ⟨0, 2, 0⟩ ⟨0, 0⟩).dir.y = 0
      ∧ ¬ ((primaryRay 1 1 0 1 ⟨0, 2, 0⟩ ⟨0, 0⟩).dir.y < 0) := by
  have h := (primaryRay_signs_zero_rot 1 1 0 1 ⟨0, 2, 0⟩).2.2.2 (by norm_num)
  exact ⟨h, by rw [h]; exact lt_irrefl 0⟩

/-- C13, amended: with `cols = 1`, `rows = 1`, camera position `(0, 2, 0)` and
rotation `(0, 0)`, the primary ray direction built for pixel `(0, 0)` is tilted
up, forward and left (`x < 0`, `y > 0`, `z > 0`), and the one built for pixel
`(0, 1)` is horizontal, forward and left (`x < 0`, `y = 0`, `z > 0`). -/
theorem corner_pixel_directions :
    ((primaryRay 1 1 0 0 ⟨0, 2, 0⟩ ⟨0, 0⟩).dir.x < 0
        ∧ 0 < (primaryRay 1 1 0 0 ⟨0, 2, 0⟩ ⟨0, 0⟩).dir.y
        ∧ 0 < (primaryRay 1 1 0 0 ⟨0, 2, 0⟩ ⟨0, 0⟩).dir.z)
      ∧ ((primaryRay 1 1 0 1 ⟨0, 2, 0⟩ ⟨0, 0⟩).dir.x < 0
        ∧ (primaryRay 1 1 0 1 ⟨0, 2, 0⟩ ⟨0, 0⟩).dir.y = 0
        ∧ 0 < (primaryRay 1 1 0 1 ⟨0, 2, 0⟩ ⟨0, 0⟩).dir.z) := by
  obtain ⟨hz, hx, hy, -⟩ := primaryRay_signs_zero_rot 1 1 0 0 ⟨0, 2, 0⟩
  obtain ⟨hz', hx', -, hy'⟩ := primaryRay_signs_zero_rot 1 1 0 1 ⟨0, 2, 0⟩
  exact ⟨⟨hx (by norm_num), hy (by norm_num), hz⟩, ⟨hx' (by norm_num), hy' (by norm_num), hz'⟩⟩

end DirectionClaims

section TerminationClaims

/-- C14: for every ray the marching loop of `raycast` terminates (enough fuel
gives a result, and so does any larger amount); in every iteration that does
not end in a hit the step `minDist` is strictly greater than
`bias = traveled / 512`, hence positive, so the traveled distance strictly
increases and, once positive, grows by a factor greater than `1 + 1/512`; the
loop then continues from the advanced position with the increased counter. -/
theorem march_terminates (lastRay ray : RayHitInfo) :
    (∃ fuel, ∀ k : Nat, ∃ m, raycastLoop lastRay (fuel + k) ray 0 = some m)
      ∧ (∃ fuel, ∀ k : Nat, ∃ r, raycast (fuel + k) lastRay = some r)
      ∧ ∀ (i : ℝ) (n : Nat), 0 ≤ i → i < 65536 →
          ¬ (distance ray.pos sphere.pos - 1 ≤ i / 512) → ¬ (ray.pos.y ≤ i / 512) →
          i / 512 < min ray.pos.y (distance ray.pos sphere.pos - 1)
            ∧ 0 < min ray.pos.y (distance ray.pos sphere.pos - 1)
            ∧ i < i + min ray.pos.y (distance ray.pos sphere.pos - 1)
            ∧ (0 < i → i * (1 + 1 / 512) < i + min ray.pos.y (distance ray.pos sphere.pos - 1))
            ∧ raycastLoop lastRay (n + 1) ray i
                = raycastLoop lastRay n
                    { ray with pos := ray.pos + (ray.dir.scale
                        (min ray.pos.y (distance ray.pos sphere.pos - 1))).scale 1.01 }
                    (i + min ray.pos.y (distance ray.pos sphere.pos - 1)) := by
  refine ⟨?_, ?_, ?_⟩
  · obtain ⟨fuel, m, h⟩ := raycastLoop_terminates lastRay ray
    exact ⟨fuel, fun k => ⟨m, raycastLoop_fuel_mono _ _ _ (Nat.le_add_right _ _) _ _ _ h⟩⟩
  · obtain ⟨fuel, h⟩ := raycast_terminates lastRay
    exact ⟨fuel, fun k => h (fuel + k) (Nat.le_add_right _ _)⟩
  · intro i n hi0 hi hs hf
    have hmin : i / 512 < min ray.pos.y (distance ray.pos sphere.pos - 1) :=
      lt_min (not_le.1 hf) (not_le.1 hs)
    have hb : 0 ≤ i / 512 := by positivity
    refine ⟨hmin, by linarith, by linarith, fun _ => by linarith, ?_⟩
    rw [raycastLoop]
    simp only [hi, hs, hf, if_true, if_false]

/-- Witness of C14: the first iteration of the march from `(0, 2, 0)` along
`(0, 0, 1)`, where the sphere is 7 away and the floor 2 below. -/
theorem march_terminates_witness :
    (0 : ℝ) / 512 < min (2 : ℝ) (distance ⟨0, 2, 0⟩ sphere.pos - 1)
      ∧ 0 < min (2 : ℝ) (distance ⟨0, 2, 0⟩ sphere.pos - 1)
      ∧ (0 : ℝ) < 0 + min (2 : ℝ) (distance ⟨0, 2, 0⟩ sphere.pos - 1)
      ∧ ((0 : ℝ) < 0 → (0 : ℝ) * (1 + 1 / 512) < 0 + min (2 : ℝ) (distance ⟨0, 2, 0⟩ sphere.pos - 1))
      ∧ raycastLoop ⟨⟨0, 0, 0⟩, ⟨0, 2, 0⟩, ⟨0, 0, 1⟩, ⟨0, 0, 0⟩, 1, true⟩ (0 + 1)
            ⟨⟨0, 0, 0⟩, ⟨0, 2, 0⟩, ⟨0, 0, 1⟩, ⟨0, 0, 0⟩, 1, true⟩ 0
          = raycastLoop ⟨⟨0, 0, 0⟩, ⟨0, 2, 0⟩, ⟨0, 0, 1⟩, ⟨0, 0, 0⟩, 1, true⟩ 0
              { (⟨⟨0, 0, 0⟩, ⟨0, 2, 0⟩, ⟨0, 0, 1⟩, ⟨0, 0, 0⟩, 1, true⟩ : RayHitInfo) with
                pos := (⟨0, 2, 0⟩ : Vec3 ℝ) + (Vec3.scale (Vec3.scale ⟨0, 0, 1⟩
                  (min (2 : ℝ) (distance ⟨0, 2, 0⟩ sphere.pos - 1))) 1.01) }
              (0 + min (2 : ℝ) (distance ⟨0, 2, 0⟩ sphere.pos - 1)) :=
  (march_terminates ⟨⟨0, 0, 0⟩, ⟨0, 2, 0⟩, ⟨0, 0, 1⟩, ⟨0, 0, 0⟩, 1, true⟩
      ⟨⟨0, 0, 0⟩, ⟨0, 2, 0⟩, ⟨0, 0, 1⟩, ⟨0, 0, 0⟩, 1, true⟩).2.2 0 0 (le_refl 0) (by norm_num)
    (by rw [distance_axis 0 (by norm_num)]; norm_num) (by norm_num)

end TerminationClaims

/-! ## The three kinds of result, the reported hit position, the seamless checkerboard -/

section ResultLemmas

/-- The record returned by `raycast`, by the exit its loop took. -/
theorem raycastTraced_cases (fuel : Nat) (lastRay : RayHitInfo) (m : March)
    (h : raycastTraced fuel lastRay = some m) :
    (m.surface = Surface.sphere ∧ m.ray.color = ⟨250, 0, 0⟩
        ∧ m.ray.nextIntensity = halfIntensity lastRay.nextIntensity ∧ m.ray.hitSky = false)
      ∨ (m.surface = Surface.floor
        ∧ (m.ray.color = ⟨255, 255, 255⟩ ∨ m.ray.color = ⟨0, 0, 0⟩)
        ∧ m.ray.nextIntensity = 0 ∧ m.ray.hitSky = false ∧ m.ray.normal = ⟨0, 1, 0⟩)
      ∨ (m.surface = Surface.sky
        ∧ (∃ k : ℝ, 1 ≤ k ∧ k ≤ 1.5 ∧ m.ray.color = SKY_COLOR.scale k)
        ∧ m.ray.nextIntensity = 0 ∧ m.ray.hitSky = true) := by
  unfold raycastTraced at h
  simp only [Option.map_eq_some'] at h
  obtain ⟨m0, h0, rfl⟩ := h
  obtain ⟨p, hsp, hfl, hsk⟩ := raycastLoop_exit _ _ _ _ _ h0
  cases hsurf : m0.surface with
  | sphere =>
    left
    obtain ⟨e, -⟩ := hsp hsurf
    have hsky : m0.ray.hitSky = false := by rw [e]
    simp only [skyTint_of_hit _ hsky]
    refine ⟨trivial, ?_, ?_, hsky⟩
    · rw [e]; rfl
    · rw [e]
  | floor =>
    right; left
    obtain ⟨e, -⟩ := hfl hsurf
    have hsky : m0.ray.hitSky = false := by rw [e]
    simp only [skyTint_of_hit _ hsky]
    refine ⟨trivial, ?_, ?_, hsky, ?_⟩
    · rw [e]
      by_cases ht : tileBrightness p.x p.z = true
      · left; simp only [ht, if_true]
      · right; simp only [ht, if_false]; rfl
    · rw [e]
    · rw [e]
  | sky =>
    right; right
    obtain ⟨e, -⟩ := hsk hsurf
    refine ⟨rfl, ⟨max 1 (1.5 - distance (normalize p) (normalize ⟨1, 1, 0⟩)),
      le_max_left _ _, max_le (by norm_num) ?_, ?_⟩, ?_, ?_⟩
    · have : 0 ≤ distance (normalize p) (normalize ⟨1, 1, 0⟩) := magnitude_nonneg _
      linarith
    · rw [e]; simp [skyTint]
    · rw [e]; simp [skyTint]
    · rw [e]; simp [skyTint]

theorem ceil_eq_floor_add_one {K : Type} [LinearOrderedField K] [FloorRing K] (x : K)
    (hx : (⌊x⌋ : K) ≠ x) : ⌈x⌉ = ⌊x⌋ + 1 := by
  rw [Int.ceil_eq_iff]
  constructor
  · have : (⌊x⌋ : K) < x := lt_of_le_of_ne (Int.floor_le x) hx
    push_cast
    linarith
  · push_cast
    exact (Int.lt_floor_add_one x).le

/-- At a coordinate that is not an integer, truncation followed by the flip for
a negative coordinate changes the parity exactly as the floor does. -/
theorem tileBrightness_eq_floor_parity {K : Type} [LinearOrderedField K] [FloorRing K] (x z : K)
    (hx : (⌊x⌋ : K) ≠ x) (hz : (⌊z⌋ : K) ≠ z) :
    tileBrightness x z = decide ((⌊x⌋ + ⌊z⌋) % 2 = 0) := by
  rw [tileBrightness_eq_specParity]
  unfold specParity toInt
  by_cases hx0 : x < 0 <;> by_cases hz0 : z < 0
  · simp only [if_neg (not_le.2 hx0), if_neg (not_le.2 hz0), hx0, hz0,
      ceil_eq_floor_add_one x hx, ceil_eq_floor_add_one z hz]
    by_cases hp : (⌊x⌋ + ⌊z⌋) % 2 = 0
    · have : (⌊x⌋ + 1 + (⌊z⌋ + 1)) % 2 = 0 := by omega
      simp [hp, this]
    · have : ¬ (⌊x⌋ + 1 + (⌊z⌋ + 1)) % 2 = 0 := by omega
      simp [hp, this]
  · simp only [if_neg (not_le.2 hx0), if_pos (not_lt.1 hz0), hx0, hz0,
      ceil_eq_floor_add_one x hx]
    by_cases hp : (⌊x⌋ + ⌊z⌋) % 2 = 0
    · have : ¬ (⌊x⌋ + 1 + ⌊z⌋) % 2 = 0 := by omega
      simp [hp, this]
    · have : (⌊x⌋ + 1 + ⌊z⌋) % 2 = 0 := by omega
      simp [hp, this]
  · simp only [if_pos (not_lt.1 hx0), if_neg (not_le.2 hz0), hx0, hz0,
      ceil_eq_floor_add_one z hz]
    by_cases hp : (⌊x⌋ + ⌊z⌋) % 2 = 0
    · have : ¬ (⌊x⌋ + (⌊z⌋ + 1)) % 2 = 0 := by omega
      simp [hp, this]
    · have : (⌊x⌋ + (⌊z⌋ + 1)) % 2 = 0 := by omega
      simp [hp, this]
  · simp only [if_pos (not_lt.1 hx0), if_pos (not_lt.1 hz0), hx0, hz0]
    simp

theorem floor_neg_half : ⌊(-0.5 : ℝ)⌋ = -1 := by
  rw [Int.floor_eq_iff]; norm_num

theorem floor_half : ⌊(0.5 : ℝ)⌋ = 0 := by
  rw [Int.floor_eq_iff]; norm_num

theorem tileBrightness_neg_one_half : tileBrightness (-1 : ℝ) (0.5 : ℝ) = true := by
  have e : toInt (0.5 : ℝ) = 0 := toInt_of_nonneg _ 0 (by norm_num) (by norm_num) (by norm_num)
  have e' : toInt (-1 : ℝ) = -1 := toInt_of_neg _ (-1) (by norm_num) (by norm_num) (by norm_num)
  have hx : ¬ ((0.5 : ℝ) < 0) := by norm_num
  have hx' : (-1 : ℝ) < 0 := by norm_num
  simp only [tileBrightness, e, e', hx, hx', if_false, if_true]
  decide

end ResultLemmas

section HitPositionClaims

/-- C17, the code at the failing input: the sphere hit of the ray from
`(0, 2, 0)` along `(0, 0, 1)` is reported at `(0, 2, 7.0094)`, the position at
which the sphere test fired; its distance from the sphere centre is 0.9906,
not 1, because the assignment `ray.pos = sphere.pos + (ray.pos - sphere.pos)`
leaves the position unchanged. -/
theorem sphere_hit_not_projected :
    raycast 5 { color := ⟨0, 0, 0⟩, pos := ⟨0, 2, 0⟩, dir := ⟨0, 0, 1⟩, normal := ⟨0, 0, 0⟩,
                nextIntensity := 1, hitSky := true }
        = some { color := ⟨250, 0, 0⟩, pos := ⟨0, 2, 7.0094⟩, dir := ⟨0, 0, -1⟩,
                 normal := ⟨0, 0, -1⟩, nextIntensity := 1 * 0.5, hitSky := false }
      ∧ distance ⟨0, 2, 7.0094⟩ sphere.pos = 0.9906
      ∧ distance ⟨0, 2, 7.0094⟩ sphere.pos ≠ 1
      ∧ ∀ p : Vec3 ℝ, sphere.pos + (p - sphere.pos) = p := by
  have h := raycastTraced_center
    { color := ⟨0, 0, 0⟩, pos := ⟨0, 2, 0⟩, dir := ⟨0, 0, 1⟩, normal := ⟨0, 0, 0⟩,
      nextIntensity := 1, hitSky := true } 0
  have hd : distance ⟨0, 2, 7.0094⟩ sphere.pos = 0.9906 := by
    rw [distance_axis _ (by norm_num)]; norm_num
  have hh : halfIntensity 1 = 1 * 0.5 := by rw [halfIntensity_one, one_mul]
  simp only [hh] at h
  refine ⟨?_, hd, ?_, fun p => vec_add_sub_cancel _ _⟩
  · rw [raycast]
    exact congrArg (Option.map March.ray) h
  · rw [hd]; norm_num

/-- C18: for every floor hit of `raycast` whose `x` and `z` coordinates are
both non-integers (a coordinate `v` is an integer iff `⌊v⌋ = v`) within the
`int` range, the colour is white iff `⌊x⌋ + ⌊z⌋` is even, with the
mathematical floor and no further flips, and black otherwise.  At a negative
integer coordinate the equality fails: the tile at `x = -1`, `z = 0.5` is white
although `⌊-1⌋ + ⌊0.5⌋` is odd. -/
theorem checkerboard_seamless (fuel : Nat) (lastRay : RayHitInfo) (m : March)
    (h : raycastTraced fuel lastRay = some m) (hs : m.surface = Surface.floor)
    (hx : (⌊m.ray.pos.x⌋ : ℝ) ≠ m.ray.pos.x) (hz : (⌊m.ray.pos.z⌋ : ℝ) ≠ m.ray.pos.z)
    (hxr : |m.ray.pos.x| < 2147483648) (hzr : |m.ray.pos.z| < 2147483648) :
    (m.ray.color = if (⌊m.ray.pos.x⌋ + ⌊m.ray.pos.z⌋) % 2 = 0 then ⟨255, 255, 255⟩
        else ⟨0, 0, 0⟩)
      ∧ (tileBrightness (-1 : ℝ) (0.5 : ℝ) = true ∧ (⌊(-1 : ℝ)⌋ + ⌊(0.5 : ℝ)⌋) % 2 ≠ 0) := by
  constructor
  · unfold raycastTraced at h
    simp only [Option.map_eq_some'] at h
    obtain ⟨m0, h0, rfl⟩ := h
    obtain ⟨p, -, hfl, -⟩ := raycastLoop_exit _ _ _ _ _ h0
    obtain ⟨e, -⟩ := hfl hs
    have hsky : m0.ray.hitSky = false := by rw [e]
    simp only [skyTint_of_hit _ hsky] at hx hz ⊢
    have hc : m0.ray.color = if tileBrightness p.x p.z then ⟨255, 255, 255⟩
        else ⟨0, 0, 0⟩ := by rw [e]
    have hp : m0.ray.pos = p := by rw [e]
    rw [hp] at hx hz
    rw [hc, hp, tileBrightness_eq_floor_parity p.x p.z hx hz]
    simp only [decide_eq_true_eq]
  · refine ⟨tileBrightness_neg_one_half, ?_⟩
    rw [floor_half]
    have : ⌊(-1 : ℝ)⌋ = -1 := by
      rw [Int.floor_eq_iff]; norm_num
    rw [this]
    decide

/-- Witness of C18: the floor hit of the ray that starts at `(-0.5, 0, 0.5)`,
which is black, and `⌊-0.5⌋ + ⌊0.5⌋ = -1` is odd. -/
theorem checkerboard_seamless_witness :
    ((⟨{ color := if tileBrightness (-0.5 : ℝ) (0.5 : ℝ) then ⟨255, 255, 255⟩ else ⟨0, 0, 0⟩,
         pos := ⟨-0.5, 0, 0.5⟩, dir := ⟨0, 0, 1⟩, normal := ⟨0, 1, 0⟩,
         nextIntensity := 0, hitSky := false }, 0, Surface.floor⟩ : March).ray.color
        = if (⌊(-0.5 : ℝ)⌋ + ⌊(0.5 : ℝ)⌋) % 2 = 0 then ⟨255, 255, 255⟩ else ⟨0, 0, 0⟩)
      ∧ (tileBrightness (-1 : ℝ) (0.5 : ℝ) = true ∧ (⌊(-1 : ℝ)⌋ + ⌊(0.5 : ℝ)⌋) % 2 ≠ 0) :=
  checkerboard_seamless 1
    { color := ⟨0, 0, 0⟩, pos := ⟨-0.5, 0, 0.5⟩, dir := ⟨0, 0, 1⟩, normal := ⟨0, 0, 0⟩,
      nextIntensity := 1, hitSky := true } _
    (raycastTraced_floor_first _ 0 (le_refl _)) rfl
    (by show ((⌊(-0.5 : ℝ)⌋ : ℤ) : ℝ) ≠ -0.5; rw [floor_neg_half]; norm_num)
    (by show ((⌊(0.5 : ℝ)⌋ : ℤ) : ℝ) ≠ 0.5; rw [floor_half]; norm_num)
    (by show |(-0.5 : ℝ)| < 2147483648; rw [abs_lt]; constructor <;> norm_num)
    (by show |(0.5 : ℝ)| < 2147483648; rw [abs_lt]; constructor <;> norm_num)

end HitPositionClaims

/-! ## The bounce loop -/

section BounceLemmas

theorem inside_magnitude (ux uy uz : ℝ) (hu : ux * ux + uy * uy + uz * uz = 1) :
    magnitude ((⟨0 + ux * 0.05, 2 + uy * 0.05, 8 + uz * 0.05⟩ : Vec3 ℝ) - sphere.pos)
      = 0.05 := by
  unfold magnitude
  simp only [vec_sub_def, sphere]
  have e : (0 + ux * 0.05 - 0) * (0 + ux * 0.05 - 0)
      + (2 + uy * 0.05 - 2) * (2 + uy * 0.05 - 2)
      + (8 + uz * 0.05 - 8) * (8 + uz * 0.05 - 8) = (0.05 : ℝ) ^ 2 := by
    linear_combination (0.0025 : ℝ) * hu
  rw [e, Real.sqrt_sq (by norm_num)]

/-- `raycast` on a ray that starts inside the sphere, `0.05` away from the
centre along the unit vector `u` and pointing along `u`: the sphere test fires
at once, the normal is `u` and the direction is reversed. -/
theorem raycastTraced_inside (fuel : Nat) (col nrm : Vec3 ℝ) (t : ℝ) (hs : Bool)
    (ux uy uz : ℝ) (hu : ux * ux + uy * uy + uz * uz = 1) :
    raycastTraced (fuel + 1)
        ⟨col, ⟨0 + ux * 0.05, 2 + uy * 0.05, 8 + uz * 0.05⟩, ⟨ux, uy, uz⟩, nrm, t, hs⟩
      = some ⟨⟨⟨250, 0, 0⟩, ⟨0 + ux * 0.05, 2 + uy * 0.05, 8 + uz * 0.05⟩, ⟨-ux, -uy, -uz⟩,
                ⟨ux, uy, uz⟩, halfIntensity t, false⟩, 0, Surface.sphere⟩ := by
  have hm := inside_magnitude ux uy uz hu
  have hd : distance ⟨0 + ux * 0.05, 2 + uy * 0.05, 8 + uz * 0.05⟩ sphere.pos - 1
      ≤ (0 : ℝ) / 512 := by
    unfold distance
    rw [hm]; norm_num
  have hn : normalize ((⟨0 + ux * 0.05, 2 + uy * 0.05, 8 + uz * 0.05⟩ : Vec3 ℝ) - sphere.pos)
      = ⟨ux, uy, uz⟩ := by
    unfold normalize
    simp only [hm]
    simp only [vec_sub_def, sphere]
    congr 1 <;> ring
  have hdir : (⟨ux, uy, uz⟩ : Vec3 ℝ)
      - (Vec3.scale (Vec3.scale ⟨ux, uy, uz⟩ 2) (dot ⟨ux, uy, uz⟩ ⟨ux, uy, uz⟩))
      = ⟨-ux, -uy, -uz⟩ := by
    simp only [vec_sub_def, Vec3.scale, dot]
    congr 1
    · linear_combination (-2 * ux) * hu
    · linear_combination (-2 * uy) * hu
    · linear_combination (-2 * uz) * hu
  have h0 : (0 : ℝ) < 65536 := by norm_num
  unfold raycastTraced
  simp only []
  rw [raycastLoop]
  simp only [h0, hd, if_true, hn, hdir, vec_add_sub_cancel, Option.map_some', skyTint_of_hit]
  rfl

/-- One pass through the body of the bounce loop for such a ray: the colour of
the sphere is added with the weight `carried - next`, and while the stored
intensity is positive the ray is moved to the mirrored position. -/
theorem bounceBody_inside (fuel : Nat) (col nrm C : Vec3 ℝ) (t I : ℝ) (hs : Bool)
    (ux uy uz : ℝ) (hu : ux * ux + uy * uy + uz * uz = 1) :
    bounceBody (fuel + 1)
        ⟨⟨col, ⟨0 + ux * 0.05, 2 + uy * 0.05, 8 + uz * 0.05⟩, ⟨ux, uy, uz⟩, nrm, t, hs⟩, C, I⟩
      = some ⟨if halfIntensity t > 0 then
                ⟨⟨250, 0, 0⟩, ⟨0 + -ux * 0.05, 2 + -uy * 0.05, 8 + -uz * 0.05⟩, ⟨-ux, -uy, -uz⟩,
                  ⟨ux, uy, uz⟩, halfIntensity t, false⟩
              else
                ⟨⟨250, 0, 0⟩, ⟨0 + ux * 0.05, 2 + uy * 0.05, 8 + uz * 0.05⟩, ⟨-ux, -uy, -uz⟩,
                  ⟨ux, uy, uz⟩, halfIntensity t, false⟩,
              C + Vec3.scale ⟨250, 0, 0⟩ (I - halfIntensity t), halfIntensity t⟩ := by
  have hp : (⟨0 + ux * 0.05, 2 + uy * 0.05, 8 + uz * 0.05⟩ : Vec3 ℝ)
      + Vec3.scale ⟨-ux, -uy, -uz⟩ 0.1
      = ⟨0 + -ux * 0.05, 2 + -uy * 0.05, 8 + -uz * 0.05⟩ := by
    simp only [vec_add_def, Vec3.scale]
    congr 1 <;> ring
  have hr : raycast (fuel + 1)
        ⟨col, ⟨0 + ux * 0.05, 2 + uy * 0.05, 8 + uz * 0.05⟩, ⟨ux, uy, uz⟩, nrm, t, hs⟩
      = some ⟨⟨250, 0, 0⟩, ⟨0 + ux * 0.05, 2 + uy * 0.05, 8 + uz * 0.05⟩, ⟨-ux, -uy, -uz⟩,
                ⟨ux, uy, uz⟩, halfIntensity t, false⟩ := by
    rw [raycast, raycastTraced_inside fuel col nrm t hs ux uy uz hu]
    rfl
  unfold bounceBody
  simp only [hr, Option.map_some', hp]

/-- The bounce loop for such a ray whose intensity is `(1/2)^j`: it ends with
the call of `raycast` in which the stored intensity underflows to 0, the
`(150 - j)`-th, and not before; the record it leaves is a sphere hit. -/
theorem bounceLoop_inside (fuel : Nat) (d : Nat) :
    ∀ (j : Nat), j + d = 149 → ∀ (col nrm C : Vec3 ℝ) (I : ℝ) (hs : Bool) (ux uy uz : ℝ),
      ux * ux + uy * uy + uz * uz = 1 →
      bounceLoop (fuel + 1) (d + 1)
          ⟨⟨col, ⟨0 + ux * 0.05, 2 + uy * 0.05, 8 + uz * 0.05⟩, ⟨ux, uy, uz⟩, nrm,
            (1 / 2) ^ j, hs⟩, C, I⟩ = none
        ∧ ∃ s' : Bounce,
          bounceLoop (fuel + 1) (d + 2)
              ⟨⟨col, ⟨0 + ux * 0.05, 2 + uy * 0.05, 8 + uz * 0.05⟩, ⟨ux, uy, uz⟩, nrm,
                (1 / 2) ^ j, hs⟩, C, I⟩ = some s'
            ∧ s'.ray.nextIntensity = 0 ∧ s'.ray.color = ⟨250, 0, 0⟩ ∧ s'.ray.hitSky = false
            ∧ ∃ (lastRay : RayHitInfo) (m : March),
                raycastTraced (fuel + 1) lastRay = some m ∧ m.surface = Surface.sphere
                  ∧ s'.ray = m.ray := by
  induction d with
  | zero =>
    intro j hj col nrm C I hs ux uy uz hu
    have hj' : j = 149 := by omega
    subst hj'
    have ht : (1 / 2 : ℝ) ^ 149 > 0 := by positivity
    have hz : ¬ (halfIntensity ((1 / 2) ^ 149) > 0) := by
      rw [halfIntensity_pow_last]; exact lt_irrefl 0
    constructor
    · rw [bounceLoop]
      simp only [ht, if_true, bounceBody_inside fuel col nrm C _ I hs ux uy uz hu,
        Option.some_bind]
      rfl
    · have hL : bounceLoop (fuel + 1) (0 + 2)
          ⟨⟨col, ⟨0 + ux * 0.05, 2 + uy * 0.05, 8 + uz * 0.05⟩, ⟨ux, uy, uz⟩, nrm,
            (1 / 2) ^ 149, hs⟩, C, I⟩
          = some ⟨⟨⟨250, 0, 0⟩, ⟨0 + ux * 0.05, 2 + uy * 0.05, 8 + uz * 0.05⟩, ⟨-ux, -uy, -uz⟩,
                    ⟨ux, uy, uz⟩, halfIntensity ((1 / 2) ^ 149), false⟩,
                  C + Vec3.scale ⟨250, 0, 0⟩ (I - halfIntensity ((1 / 2) ^ 149)),
                  halfIntensity ((1 / 2) ^ 149)⟩ := by
        rw [bounceLoop]
        simp only [ht, if_true, bounceBody_inside fuel col nrm C _ I hs ux uy uz hu,
          Option.some_bind, hz, if_false]
        rw [bounceLoop]
        simp only [hz, if_false]
      exact ⟨_, hL, halfIntensity_pow_last, rfl, rfl, _, _,
        raycastTraced_inside fuel col nrm ((1 / 2) ^ 149) hs ux uy uz hu, rfl, rfl⟩
  | succ d ih =>
    intro j hj col nrm C I hs ux uy uz hu
    have hjle : j ≤ 148 := by omega
    have ht : (1 / 2 : ℝ) ^ j > 0 := by positivity
    have hh : halfIntensity ((1 / 2) ^ j) = (1 / 2) ^ (j + 1) := halfIntensity_pow j hjle
    have hpos : (1 / 2 : ℝ) ^ (j + 1) > 0 := by positivity
    obtain ⟨h1, s', h2, h3⟩ := ih (j + 1) (by omega) ⟨250, 0, 0⟩ ⟨ux, uy, uz⟩
      (C + Vec3.scale ⟨250, 0, 0⟩ (I - (1 / 2) ^ (j + 1))) ((1 / 2) ^ (j + 1)) false
      (-ux) (-uy) (-uz) (by linear_combination hu)
    constructor
    · rw [bounceLoop]
      simp only [ht, if_true, bounceBody_inside fuel col nrm C _ I hs ux uy uz hu,
        Option.some_bind, hh, hpos]
      exact h1
    · refine ⟨s', ?_, h3⟩
      rw [bounceLoop]
      simp only [ht, if_true, bounceBody_inside fuel col nrm C _ I hs ux uy uz hu,
        Option.some_bind, hh, hpos]
      exact h2

/-- After `n` passes through the body, with `j + n ≤ 149`, the intensity of
such a ray is `(1/2)^(j + n)`, still positive. -/
theorem bounceBody_iterate_inside (fuel : Nat) (n : Nat) :
    ∀ (j : Nat), j + n ≤ 149 → ∀ (col nrm C : Vec3 ℝ) (I : ℝ) (hs : Bool) (ux uy uz : ℝ),
      ux * ux + uy * uy + uz * uz = 1 →
      ∃ s : Bounce,
        (fun o : Option Bounce => o.bind (bounceBody (fuel + 1)))^[n]
            (some ⟨⟨col, ⟨0 + ux * 0.05, 2 + uy * 0.05, 8 + uz * 0.05⟩, ⟨ux, uy, uz⟩, nrm,
              (1 / 2) ^ j, hs⟩, C, I⟩) = some s
          ∧ s.ray.nextIntensity = (1 / 2) ^ (j + n) ∧ 0 < s.ray.nextIntensity := by
  induction n with
  | zero =>
    intro j _ col nrm C I hs ux uy uz _
    exact ⟨_, rfl, rfl, by show (0 : ℝ) < (1 / 2) ^ j; positivity⟩
  | succ n ih =>
    intro j hj col nrm C I hs ux uy uz hu
    have hh : halfIntensity ((1 / 2) ^ j) = (1 / 2) ^ (j + 1) := halfIntensity_pow j (by omega)
    have hpos : (1 / 2 : ℝ) ^ (j + 1) > 0 := by positivity
    rw [Function.iterate_succ_apply]
    simp only [Option.some_bind, bounceBody_inside fuel col nrm C _ I hs ux uy uz hu, hh, hpos,
      if_true]
    obtain ⟨s, h1, h2, h3⟩ := ih (j + 1) (by omega) ⟨250, 0, 0⟩ ⟨ux, uy, uz⟩
      (C + Vec3.scale ⟨250, 0, 0⟩ (I - (1 / 2) ^ (j + 1))) ((1 / 2) ^ (j + 1)) false
      (-ux) (-uy) (-uz) (by linear_combination hu)
    refine ⟨s, h1, ?_, h3⟩
    rw [h2]
    congr 1
    omega

theorem inside_start :
    (⟨⟨SKY_COLOR, ⟨0.05, 2, 8⟩, ⟨1, 0, 0⟩, ⟨0, 0, 0⟩, 1, true⟩, ⟨0, 0, 0⟩, 1⟩ : Bounce)
      = ⟨⟨SKY_COLOR, ⟨0 + 1 * 0.05, 2 + 0 * 0.05, 8 + 0 * 0.05⟩, ⟨1, 0, 0⟩, ⟨0, 0, 0⟩,
          (1 / 2) ^ 0, true⟩, ⟨0, 0, 0⟩, 1⟩ := by
  congr 2
  congr 1 <;> norm_num

end BounceLemmas

/-! ## Colours and weights -/

section PixelLemmas

end PixelLemmas

section BounceTermination

theorem raycast_fuel_mono (fuel fuel' : Nat) (hle : fuel ≤ fuel') (lastRay r : RayHitInfo)
    (h : raycast fuel lastRay = some r) : raycast fuel' lastRay = some r := by
  unfold raycast raycastTraced at h ⊢
  simp only [Option.map_eq_some'] at h
  obtain ⟨m, ⟨m0, h0, rfl⟩, rfl⟩ := h
  simp only [raycastLoop_fuel_mono _ _ _ hle _ _ _ h0, Option.map_some']

theorem bounceBody_fuel_mono (fuel fuel' : Nat) (hle : fuel ≤ fuel') (s s1 : Bounce)
    (h : bounceBody fuel s = some s1) : bounceBody fuel' s = some s1 := by
  unfold bounceBody at h ⊢
  simp only [Option.map_eq_some'] at h
  obtain ⟨r, hr, rfl⟩ := h
  rw [raycast_fuel_mono _ _ hle _ _ hr]
  rfl

theorem bounceLoop_fuel_mono (fuel fuel' : Nat) (hle : fuel ≤ fuel') (n : Nat) :
    ∀ (s s' : Bounce), bounceLoop fuel n s = some s' → bounceLoop fuel' n s = some s' := by
  induction n with
  | zero => intro s s' h; simp [bounceLoop] at h
  | succ n ih =>
    intro s s' h
    rw [bounceLoop] at h ⊢
    by_cases ht : s.ray.nextIntensity > 0
    · rw [if_pos ht] at h ⊢
      cases hb : bounceBody fuel s with
      | none => rw [hb] at h; simp at h
      | some s1 =>
        rw [hb, Option.some_bind] at h
        rw [bounceBody_fuel_mono _ _ hle _ _ hb, Option.some_bind]
        exact ih _ _ h
    · rw [if_neg ht] at h ⊢
      exact h

/-- Once the intensity of the ray is 0 the loop is over: it returns its state
and its trace is empty. -/
theorem bounceLoop_done (fuel n : Nat) (s : Bounce) (h0 : s.ray.nextIntensity = 0) :
    bounceLoop fuel (n + 1) s = some s ∧ bounceTrace fuel (n + 1) s = some [] := by
  have hn : ¬ s.ray.nextIntensity > 0 := by rw [h0]; exact lt_irrefl 0
  constructor
  · rw [bounceLoop, if_neg hn]
  · rw [bounceTrace, if_neg hn]

/-- The body of the bounce loop returns when `raycast` does. -/
theorem bounceBody_some (fuel : Nat) (s : Bounce) (r : RayHitInfo)
    (h : raycast fuel s.ray = some r) :
    ∃ s1, bounceBody fuel s = some s1 ∧ s1.ray.nextIntensity = r.nextIntensity := by
  unfold bounceBody
  rw [h, Option.map_some']
  refine ⟨_, rfl, ?_⟩
  show (if r.nextIntensity > 0 then
          ({ r with pos := r.pos + r.dir.scale 0.1 } : RayHitInfo) else r).nextIntensity
      = r.nextIntensity
  split_ifs <;> rfl

/-- The bounce loop entered with the intensity `(1/2)^j` ends within
`150 - j` calls of `raycast`, given enough fuel for each of them. -/
theorem bounceLoop_terminates (d : Nat) :
    ∀ (j : Nat) (s : Bounce), j + d = 149 → s.ray.nextIntensity = (1 / 2) ^ j →
      ∃ (fuel : Nat) (s' : Bounce), bounceLoop fuel (d + 2) s = some s' := by
  induction d with
  | zero =>
    intro j s hj hs
    have hj' : j = 149 := by omega
    subst hj'
    have ht : s.ray.nextIntensity > 0 := by rw [hs]; positivity
    obtain ⟨f1, hf1⟩ := raycast_terminates s.ray
    obtain ⟨r, hr⟩ := hf1 f1 (le_refl _)
    obtain ⟨s1, hb, hni⟩ := bounceBody_some f1 s r hr
    have hr0 : r.nextIntensity = 0 := by
      unfold raycast at hr
      simp only [Option.map_eq_some'] at hr
      obtain ⟨m, hm, rfl⟩ := hr
      rcases raycastTraced_cases _ _ _ hm with ⟨-, -, h1, -⟩ | ⟨-, -, h1, -⟩ | ⟨-, -, h1, -⟩
      · rw [h1, hs, halfIntensity_pow_last]
      · exact h1
      · exact h1
    refine ⟨f1, s1, ?_⟩
    rw [bounceLoop, if_pos ht, hb, Option.some_bind]
    exact (bounceLoop_done f1 0 s1 (by rw [hni, hr0])).1
  | succ d ih =>
    intro j s hj hs
    have ht : s.ray.nextIntensity > 0 := by rw [hs]; positivity
    obtain ⟨f1, hf1⟩ := raycast_terminates s.ray
    obtain ⟨r, hr⟩ := hf1 f1 (le_refl _)
    obtain ⟨s1, hb, hni⟩ := bounceBody_some f1 s r hr
    have hcases : r.nextIntensity = (1 / 2) ^ (j + 1) ∨ r.nextIntensity = 0 := by
      unfold raycast at hr
      simp only [Option.map_eq_some'] at hr
      obtain ⟨m, hm, rfl⟩ := hr
      rcases raycastTraced_cases _ _ _ hm with ⟨-, -, h1, -⟩ | ⟨-, -, h1, -⟩ | ⟨-, -, h1, -⟩
      · left; rw [h1, hs, halfIntensity_pow j (by omega)]
      · right; exact h1
      · right; exact h1
    rcases hcases with hc | hc
    · obtain ⟨f2, s', h2⟩ := ih (j + 1) s1 (by omega) (by rw [hni, hc])
      refine ⟨max f1 f2, s', ?_⟩
      rw [bounceLoop, if_pos ht, bounceBody_fuel_mono f1 _ (le_max_left _ _) _ _ hb,
        Option.some_bind]
      exact bounceLoop_fuel_mono f2 _ (le_max_right _ _) _ _ _ h2
    · refine ⟨f1, s1, ?_⟩
      rw [bounceLoop, if_pos ht, hb, Option.some_bind]
      exact (bounceLoop_done f1 (d + 1) s1 (by rw [hni, hc])).1

end BounceTermination

section BounceTraceLemmas

end BounceTraceLemmas

section BounceClaimLemmas

theorem bounceLoop_bounces_succ (fuel : Nat) (n : Nat) :
    ∀ (s s' : Bounce), bounceLoop fuel n s = some s' → bounceLoop fuel (n + 1) s = some s' := by
  induction n with
  | zero => intro s s' h; simp [bounceLoop] at h
  | succ n ih =>
    intro s s' h
    rw [bounceLoop] at h ⊢
    by_cases ht : s.ray.nextIntensity > 0
    · rw [if_pos ht] at h ⊢
      cases hb : bounceBody fuel s with
      | none => rw [hb] at h; simp at h
      | some s1 =>
        rw [hb] at h
        simp only [Option.some_bind] at h ⊢
        exact ih _ _ h
    · rw [if_neg ht] at h ⊢
      exact h

theorem bounceLoop_none_of_le (fuel : Nat) (n n' : Nat) (hle : n ≤ n') (s : Bounce)
    (h : bounceLoop fuel n' s = none) : bounceLoop fuel n s = none := by
  induction hle with
  | refl => exact h
  | step _ ih =>
    apply ih
    cases hb : bounceLoop fuel _ s with
    | none => rfl
    | some s' => rw [bounceLoop_bounces_succ _ _ _ _ hb] at h; cases h

end BounceClaimLemmas

section BounceClaims

/-- C16, refuted as stated: for the ray that starts inside the sphere at
`(0.05, 2, 8)` with direction `(1, 0, 0)`, the bounce loop has not ended after
32 calls of `raycast`; after the 32nd pass through its body the intensity of
the ray is `(1/2)^32`, still positive. -/
theorem bounce_bound_counterexample :
    bounceLoop 1 33 ⟨⟨SKY_COLOR, ⟨0.05, 2, 8⟩, ⟨1, 0, 0⟩, ⟨0, 0, 0⟩, 1, true⟩, ⟨0, 0, 0⟩, 1⟩
        = none
      ∧ ∃ s : Bounce,
          (fun o : Option Bounce => o.bind (bounceBody 1))^[32]
              (some ⟨⟨SKY_COLOR, ⟨0.05, 2, 8⟩, ⟨1, 0, 0⟩, ⟨0, 0, 0⟩, 1, true⟩, ⟨0, 0, 0⟩, 1⟩)
            = some s
          ∧ s.ray.nextIntensity = (1 / 2) ^ 32 ∧ 0 < s.ray.nextIntensity := by
  have hl := (bounceLoop_inside 0 149 0 (by norm_num) SKY_COLOR ⟨0, 0, 0⟩ ⟨0, 0, 0⟩ 1 true
    1 0 0 (by norm_num)).1
  obtain ⟨s, h1, h2, h3⟩ := bounceBody_iterate_inside 0 32 0 (by norm_num) SKY_COLOR ⟨0, 0, 0⟩
    ⟨0, 0, 0⟩ 1 true 1 0 0 (by norm_num)
  rw [← inside_start] at hl h1
  exact ⟨bounceLoop_none_of_le _ 33 150 (by norm_num) _ hl, s, h1, by rw [h2], h3⟩

/-- C16, amended: for every starting ray, with `nextIntensity = 1` as
`getPixel` sets it, the bounce loop ends after at most 150 calls of
`raycast`: the intensity is a `float` that is halved at every sphere hit, it is
`(1/2)^k` after `k ≤ 149` sphere hits and the 150th halving underflows to 0.
The bound is attained, and 32 calls are not enough: the ray that starts inside
the sphere at `(0.05, 2, 8)` with direction `(1, 0, 0)` is reflected inside the
sphere until the loop ends with the 150th call, on a sphere hit; after 32
calls its intensity is `(1/2)^32 > 0`. -/
theorem bounce_loop_halving (fuel : Nat) (s0 : Bounce) (h1 : s0.ray.nextIntensity = 1) :
    (∃ f, ∀ k : Nat, ∃ s', bounceLoop (f + k) 151 s0 = some s')
      ∧ ((∀ k : Nat, k ≤ 148 → halfIntensity ((1 / 2) ^ k) = (1 / 2) ^ (k + 1))
          ∧ halfIntensity ((1 / 2) ^ 149) = 0)
      ∧ bounceLoop (fuel + 1) 150
          ⟨⟨SKY_COLOR, ⟨0.05, 2, 8⟩, ⟨1, 0, 0⟩, ⟨0, 0, 0⟩, 1, true⟩, ⟨0, 0, 0⟩, 1⟩ = none
      ∧ (∃ s' : Bounce,
          bounceLoop (fuel + 1) 151
              ⟨⟨SKY_COLOR, ⟨0.05, 2, 8⟩, ⟨1, 0, 0⟩, ⟨0, 0, 0⟩, 1, true⟩, ⟨0, 0, 0⟩, 1⟩ = some s'
            ∧ s'.ray.nextIntensity = 0 ∧ s'.ray.color = ⟨250, 0, 0⟩ ∧ s'.ray.hitSky = false)
      ∧ ∃ s' : Bounce,
          (fun o : Option Bounce => o.bind (bounceBody (fuel + 1)))^[32]
              (some ⟨⟨SKY_COLOR, ⟨0.05, 2, 8⟩, ⟨1, 0, 0⟩, ⟨0, 0, 0⟩, 1, true⟩, ⟨0, 0, 0⟩, 1⟩)
            = some s'
          ∧ s'.ray.nextIntensity = (1 / 2) ^ 32 ∧ 0 < s'.ray.nextIntensity := by
  obtain ⟨f, s', hf⟩ := bounceLoop_terminates 149 0 s0 (by norm_num) (by rw [h1, pow_zero])
  obtain ⟨hnone, s1, hsome, hz, hcol, hsky, -⟩ := bounceLoop_inside fuel 149 0 (by norm_num)
    SKY_COLOR ⟨0, 0, 0⟩ ⟨0, 0, 0⟩ 1 true 1 0 0 (by norm_num)
  obtain ⟨s2, e1, e2, e3⟩ := bounceBody_iterate_inside fuel 32 0 (by norm_num) SKY_COLOR
    ⟨0, 0, 0⟩ ⟨0, 0, 0⟩ 1 true 1 0 0 (by norm_num)
  rw [← inside_start] at hnone hsome e1
  exact ⟨⟨f, fun k => ⟨s', bounceLoop_fuel_mono f _ (Nat.le_add_right _ _) _ _ _ hf⟩⟩,
    ⟨fun k hk => halfIntensity_pow k hk, halfIntensity_pow_last⟩, hnone,
    ⟨s1, hsome, hz, hcol, hsky⟩, s2, e1, by rw [e2], e3⟩

/-- Witness of C16 (amended): the ray that starts inside the sphere. -/
theorem bounce_loop_halving_witness :
    (∃ f, ∀ k : Nat, ∃ s',
        bounceLoop (f + k) 151
          ⟨⟨SKY_COLOR, ⟨0.05, 2, 8⟩, ⟨1, 0, 0⟩, ⟨0, 0, 0⟩, 1, true⟩, ⟨0, 0, 0⟩, 1⟩ = some s')
      ∧ ((∀ k : Nat, k ≤ 148 → halfIntensity ((1 / 2) ^ k) = (1 / 2) ^ (k + 1))
          ∧ halfIntensity ((1 / 2) ^ 149) = 0)
      ∧ bounceLoop (0 + 1) 150
          ⟨⟨SKY_COLOR, ⟨0.05, 2, 8⟩, ⟨1, 0, 0⟩, ⟨0, 0, 0⟩, 1, true⟩, ⟨0, 0, 0⟩, 1⟩ = none
      ∧ (∃ s' : Bounce,
          bounceLoop (0 + 1) 151
              ⟨⟨SKY_COLOR, ⟨0.05, 2, 8⟩, ⟨1, 0, 0⟩, ⟨0, 0, 0⟩, 1, true⟩, ⟨0, 0, 0⟩, 1⟩ = some s'
            ∧ s'.ray.nextIntensity = 0 ∧ s'.ray.color = ⟨250, 0, 0⟩ ∧ s'.ray.hitSky = false)
      ∧ ∃ s' : Bounce,
          (fun o : Option Bounce => o.bind (bounceBody (0 + 1)))^[32]
              (some ⟨⟨SKY_COLOR, ⟨0.05, 2, 8⟩, ⟨1, 0, 0⟩, ⟨0, 0, 0⟩, 1, true⟩, ⟨0, 0, 0⟩, 1⟩)
            = some s'
          ∧ s'.ray.nextIntensity = (1 / 2) ^ 32 ∧ 0 < s'.ray.nextIntensity :=
  bounce_loop_halving 0
    ⟨⟨SKY_COLOR, ⟨0.05, 2, 8⟩, ⟨1, 0, 0⟩, ⟨0, 0, 0⟩, 1, true⟩, ⟨0, 0, 0⟩, 1⟩ rfl

end BounceClaims

section PixelClaimLemmas

end PixelClaimLemmas


/-! ## A ray caught between two points inside the sphere -/

section RadialLemmas

end RadialLemmas

/-! ## A shadow probe that leaves the sphere behind -/

section EscapeLemmas

end EscapeLemmas

/-! ## A pixel whose colour is NaN -/

section NaNLemmas

end NaNLemmas

/-! ## The colour of a pixel and its encoding -/

section NaNRelationLemmas

end NaNRelationLemmas

section PixelClaims

end PixelClaims

section ChannelClaims

variable {K : Type} [LinearOrderedField K] [FloorRing K]

end ChannelClaims

end TerminalRaycast
